import Mathlib

/-!
Verification of the AutoEnv execution core against its specification.

Part 1 models the DAG pipeline (`src/base/pipeline/base_node.py`,
`src/base/pipeline/base_pipeline.py`): node graphs, `BaseNode.add`,
`BasePipeline._collect_nodes` (depth-first traversal) and
`BasePipeline.run` (Kahn-style frontier scheduling).

Part 2 models the benchmark orchestrator (`src/benchmarks/base/benchmark.py`):
world listing and selection, workload loading with its failure modes,
the bounded-concurrency semaphore, ratio computation, CSV schema
migration, and the working-directory / sys.path discipline.

Python machine state that the code manipulates (dicts, sets, the file
system, `os.getcwd`, `sys.path`) is embedded with explicit functional
state; exceptions are embedded with `Except`.
-/

namespace AutoEnvProof

/-! ## Part 1: pipeline graph model -/

/-- One `BaseNode` object: its `node_id` and the `node_id`s of the nodes in
its `successors` and `predecessors` lists.  Node identities are modelled as
naturals; the spec's data model declares `node_id` unique within a graph, so
object references are faithfully represented by ids. -/
structure PNode where
  node_id : Nat
  successors : List Nat
  predecessors : List Nat
deriving DecidableEq, Repr

/-- A graph instance: the set of node objects in memory plus the id of the
root node handed to `BasePipeline`. -/
structure PGraph where
  root : Nat
  nodes : List PNode
deriving DecidableEq, Repr

/-- Resolve a node id to its node object (ids are unique in well-formed
graphs, so `find?` picks the unique match). -/
def PGraph.find? (g : PGraph) (i : Nat) : Option PNode :=
  g.nodes.find? (fun n => n.node_id == i)

/-- The successor ids of node `i` (empty when `i` resolves to no node). -/
def PGraph.succOf (g : PGraph) (i : Nat) : List Nat :=
  (g.find? i).elim [] PNode.successors

/-- The predecessor ids of node `i`. -/
def PGraph.predOf (g : PGraph) (i : Nat) : List Nat :=
  (g.find? i).elim [] PNode.predecessors

/-- All node ids present in the graph. -/
def PGraph.idList (g : PGraph) : List Nat :=
  g.nodes.map PNode.node_id

/-- The successor-edge relation `a -> b` of the graph ("a must complete
before b may start"). -/
def Edge (g : PGraph) (a b : Nat) : Prop :=
  b ∈ g.succOf a

instance decEdge (g : PGraph) (a b : Nat) : Decidable (Edge g a b) :=
  inferInstanceAs (Decidable (b ∈ g.succOf a))

/-- Well-formedness of a node graph, i.e. the data-model invariants that
`BaseNode.add` (the only edge builder) maintains: the root exists, ids are
unique, edges resolve to existing nodes, the edge lists are duplicate-free,
and the successor/predecessor lists are mutually consistent. -/
def WellFormed (g : PGraph) : Prop :=
  g.root ∈ g.idList ∧
  g.idList.Nodup ∧
  (∀ n ∈ g.nodes, ∀ s ∈ n.successors, s ∈ g.idList) ∧
  (∀ n ∈ g.nodes, ∀ p ∈ n.predecessors, p ∈ g.idList) ∧
  (∀ n ∈ g.nodes, n.successors.Nodup) ∧
  (∀ n ∈ g.nodes, n.predecessors.Nodup) ∧
  (∀ a ∈ g.idList, ∀ b ∈ g.idList, (b ∈ g.succOf a ↔ a ∈ g.predOf b))

instance decWellFormed (g : PGraph) : Decidable (WellFormed g) := by
  unfold WellFormed
  infer_instance

instance decEqExcept {ε α : Type} [DecidableEq ε] [DecidableEq α] : DecidableEq (Except ε α)
  | .ok a, .ok b =>
      if h : a = b then isTrue (by rw [h]) else isFalse (fun hh => h (by injection hh))
  | .ok _, .error _ => isFalse (fun h => Except.noConfusion h)
  | .error _, .ok _ => isFalse (fun h => Except.noConfusion h)
  | .error e, .error f =>
      if h : e = f then isTrue (by rw [h]) else isFalse (fun hh => h (by injection hh))

/-- `BasePipeline._collect_nodes`'s recursive `dfs`: visit a node, record it
in preorder, then recurse into its successors.  `acc` is simultaneously the
`visited` set and the ordered `nodes` list (the Python code keeps them in
lock step).  `fuel` bounds the recursion depth; `collectNodes` supplies
enough fuel for the result to be exact. -/
def dfsAux (g : PGraph) : Nat → Nat → List Nat → List Nat
  | 0, _, acc => acc
  | fuel + 1, x, acc =>
    if x ∈ acc then acc
    else (g.succOf x).foldl (fun a s => dfsAux g fuel s a) (acc ++ [x])

/-- `BasePipeline._collect_nodes`: depth-first collection of every node
reachable from the root, deduplicated, in preorder. -/
def collectNodes (g : PGraph) : List Nat :=
  dfsAux g (g.nodes.length + 1) g.root []

/-- The inner update of `run`'s bookkeeping loop: for every executed ready
node, decrement the in-degree of each of its successors. -/
def decSuccs (g : PGraph) (inDeg : Nat → Int) (ready : List Nat) : Nat → Int :=
  ready.foldl
    (fun d nid => (g.succOf nid).foldl (fun d2 s => Function.update d2 s (d2 s - 1)) d)
    inDeg

/-- The ready frontier: not-yet-executed collected nodes with in-degree 0,
in collection order (Python iterates the insertion-ordered dict). -/
def readyList (nodes : List Nat) (inDeg : Nat → Int) (executed : List Nat) : List Nat :=
  nodes.filter (fun nid => decide (inDeg nid = 0) && decide (nid ∉ executed))

/-- The `while len(executed) < len(nodes)` loop of `BasePipeline.run`.
Instead of executing node bodies it records the schedule: the list of
frontiers, in order, that `asyncio.gather` would run.  The loop either
finishes (`Except.ok` with the schedule), raises
`ValueError("Cycle detected in DAG")`, or — in the model only — runs out of
fuel; the supplied fuel is provably never exhausted since every
non-raising iteration executes at least one new node. -/
def runLoop (g : PGraph) (nodes : List Nat) :
    Nat → (Nat → Int) → List Nat → List (List Nat) → Except String (List (List Nat))
  | 0, _, _, _ => .error "fuel exhausted"
  | fuel + 1, inDeg, executed, sched =>
    if executed.length < nodes.length then
      let ready := readyList nodes inDeg executed
      if ready.isEmpty then .error "Cycle detected in DAG"
      else runLoop g nodes fuel (decSuccs g inDeg ready) (executed ++ ready) (sched ++ [ready])
    else .ok sched

/-- `BasePipeline.run`: collect the reachable nodes, initialize each
in-degree to the length of the node's declared predecessor list, then run
the frontier loop.  Returns the executed schedule (list of concurrent
frontiers) or the raised error. -/
def pipelineRun (g : PGraph) : Except String (List (List Nat)) :=
  let nodes := collectNodes g
  runLoop g nodes (nodes.length + 1) (fun i => ((g.predOf i).length : Int)) [] []

/-- Number of graph ids not yet visited by the traversal; the decreasing
measure that makes the fuel of `collectNodes` sufficient. -/
def newCard (g : PGraph) (acc : List Nat) : Nat :=
  (g.idList.toFinset \ acc.toFinset).card

/-- Reachability from the root along successor edges (the nodes
`_collect_nodes` is specified to find). -/
inductive Reaches (g : PGraph) : Nat → Prop
  | root : Reaches g g.root
  | step {a b : Nat} : Reaches g a → b ∈ g.succOf a → Reaches g b

/-- The edge relation is acyclic: no node reaches itself by a nonempty
successor path. -/
def Acyclic (g : PGraph) : Prop :=
  ∀ x, ¬ Relation.TransGen (Edge g) x x

/-- Every predecessor declared by a reachable node is itself reachable from
the root. -/
def PredClosed (g : PGraph) : Prop :=
  ∀ x, Reaches g x → ∀ p ∈ g.predOf x, Reaches g p

/-- First half of `BaseNode.add` on the source node: append `b` to
`self.successors` unless already present.  Python's `in` uses pydantic field
equality, which coincides with `node_id` equality for graphs with unique
ids. -/
def addSucc (n : PNode) (b : Nat) : PNode :=
  if b ∈ n.successors then n else { n with successors := n.successors ++ [b] }

/-- Second half of `BaseNode.add` on the target node: append `a` to
`node.predecessors` unless already present. -/
def addPred (n : PNode) (a : Nat) : PNode :=
  if a ∈ n.predecessors then n else { n with predecessors := n.predecessors ++ [a] }

/-- Apply the successor-side mutation of `a.add(b)` to the node with id `a`. -/
def updA (a b : Nat) (n : PNode) : PNode :=
  if n.node_id = a then addSucc n b else n

/-- Apply the predecessor-side mutation of `a.add(b)` to the node with id `b`. -/
def updB (a b : Nat) (n : PNode) : PNode :=
  if n.node_id = b then addPred n a else n

/-- `a.add(b)` (and the `>>` operator) on a graph: mutate `a.successors`
first, then `b.predecessors`, exactly as the two statements in
`BaseNode.add`'s loop body. -/
def addEdge (g : PGraph) (a b : Nat) : PGraph :=
  { g with nodes := (g.nodes.map (updA a b)).map (updB a b) }

/-- A concrete 4-node diamond graph 0 → 1,2 → 3 (the spec's scenario A),
built as `BaseNode.add` would build it. -/
def diamondG : PGraph :=
  { root := 0
    nodes :=
      [ { node_id := 0, successors := [1, 2], predecessors := [] }
      , { node_id := 1, successors := [3], predecessors := [0] }
      , { node_id := 2, successors := [3], predecessors := [0] }
      , { node_id := 3, successors := [], predecessors := [1, 2] } ] }

/-- A concrete 2-node cyclic graph 0 ⇄ 1. -/
def cycleG : PGraph :=
  { root := 0
    nodes :=
      [ { node_id := 0, successors := [1], predecessors := [1] }
      , { node_id := 1, successors := [0], predecessors := [0] } ] }

/-- A concrete acyclic graph where node 1 is a declared predecessor of node
2 but is not reachable from the root 0: edges 0 → 2 and 1 → 2. -/
def strayPredG : PGraph :=
  { root := 0
    nodes :=
      [ { node_id := 0, successors := [2], predecessors := [] }
      , { node_id := 1, successors := [2], predecessors := [] }
      , { node_id := 2, successors := [], predecessors := [0, 1] } ] }

/-- Loop invariant of `BasePipeline.run`'s bookkeeping: the executed set is
a duplicate-free subset of the collected nodes, and each collected node's
current in-degree equals its declared predecessor count minus the number of
its predecessors already executed. -/
def ExecInv (g : PGraph) (nodes : List Nat) (inDeg : Nat → Int) (executed : List Nat) : Prop :=
  (∀ y ∈ executed, y ∈ nodes) ∧ executed.Nodup ∧
  ∀ v ∈ nodes, inDeg v =
    ((g.predOf v).length : Int) -
      (((g.predOf v).filter (fun p => decide (p ∈ executed))).length : Int)

/-- A schedule is dependency-ordered: each node's declared predecessors all
occur in strictly earlier frontiers.  `done` accumulates the earlier
frontiers' nodes. -/
def RoundsOrderedFrom (g : PGraph) : List Nat → List (List Nat) → Prop
  | _, [] => True
  | done, r :: rest =>
      (∀ v ∈ r, ∀ p ∈ g.predOf v, p ∈ done) ∧ RoundsOrderedFrom g (done ++ r) rest

/-! ## Part 2: benchmark orchestrator model (`src/benchmarks/base/benchmark.py`) -/

/-- A workload (environment folder) as the benchmark observes it.  Level
identifiers (file stems) are modelled as naturals carrying the total order
that Python's `sorted` uses on the stem strings; each listed level file has
a flag for whether it parses as YAML.  The outcomes of dynamically
importing `env_main.py` are oracles fixed per workload. -/
structure EnvFolder where
  levelsDir : Option (List (Nat × Bool))
  valLevelsDir : Option (List (Nat × Bool))
  envMainExists : Bool
  execOk : Bool
  subclassFound : Bool
  agentInstruction : Option String
  actionSpace : Option String
  configMaxSteps : Option Nat
  maxRewardsFileOk : Bool
  maxRewards : List (Nat × ℚ)

/-- The directory `_list_env_worlds` reads: `val_levels` for mode "val",
else `levels`. -/
def chooseDir (f : EnvFolder) (mode : String) : Option (List (Nat × Bool)) :=
  if mode == "val" then f.valLevelsDir else f.levelsDir

/-- The raw glob listing (`levels_dir.glob("*.yaml")` stems) of the chosen
directory, in arbitrary file-system order. -/
def rawStems (f : EnvFolder) (mode : String) : List Nat :=
  match chooseDir f mode with
  | none => []
  | some files => files.map Prod.fst

/-- `Benchmark._list_env_worlds`: the stems of `val_levels/*.yaml` for mode
"val", else of `levels/*.yaml`, sorted ascending (`sorted(levels)`); empty
(after a warning) when the directory does not exist. -/
def listEnvWorlds (f : EnvFolder) (mode : String) : List Nat :=
  match chooseDir f mode with
  | none => []
  | some files => List.insertionSort (fun a b : Nat => a ≤ b) (files.map Prod.fst)

/-- Python's `str.lower()` on the (ASCII) mode strings, written over the
character list so that it evaluates structurally. -/
def strToLower (s : String) : String :=
  ⟨s.data.map Char.toLower⟩

/-- Mode normalization at the top of `Benchmark.execute`:
`str(world_mode or "test").lower()`, then anything outside
`{"test", "val"}` becomes `"test"`. -/
def normalizeMode (world_mode : String) : String :=
  let m := strToLower (if world_mode = "" then "test" else world_mode)
  if m = "test" ∨ m = "val" then m else "test"

/-- World selection in `Benchmark.execute`: normalize the mode, list the
worlds, keep the first `max_worlds` of them when a cap is supplied
(`world_ids[:max_worlds]`). -/
def selectWorlds (f : EnvFolder) (world_mode : String) (max_worlds : Option Nat) :
    List Nat :=
  let ids := listEnvWorlds f (normalizeMode world_mode)
  match max_worlds with
  | none => ids
  | some n => ids.take n

/-- Whether `{id}.yaml` exists in a directory listing and whether it
parses. -/
def lookupLevel (d : Option (List (Nat × Bool))) (wid : Nat) : Option Bool :=
  (d.getD []).lookup wid

/-- `Benchmark._validate_level`: try `val_levels/{id}.yaml` then
`levels/{id}.yaml`; the first existing candidate must parse as YAML. -/
def validateLevel (f : EnvFolder) (wid : Nat) : Bool :=
  match lookupLevel f.valLevelsDir wid with
  | some ok => ok
  | none =>
    match lookupLevel f.levelsDir wid with
    | some ok => ok
    | none => false

/-- Python truthiness of an optional string (`not info.get(...)` fails for
a missing key and for an empty string). -/
def truthy (o : Option String) : Bool :=
  match o with
  | none => false
  | some s => !(s == "")

/-- `Benchmark._load_env`'s outcome, abstracting the dynamic import (its
working-directory and `sys.path` discipline is modelled by
`loadEnvState`): missing `env_main.py`, a failed module execution, and no
`SkinEnv` subclass are distinct raised errors. -/
def loadEnv (f : EnvFolder) : Except String Unit :=
  if !f.envMainExists then .error "env_main not found"
  else if !f.execOk then .error "Failed to load env module"
  else if !f.subclassFound then .error "No valid SkinEnv subclass found"
  else .ok ()

/-- The `env_info` record `_load_env_world` returns beside the wrapped
environment. -/
structure EnvInfo where
  world_id : Nat
  redirected : Bool
  max_step : Option Nat
deriving Repr, DecidableEq

/-- `Benchmark._load_env_world`: validate the level (missing or malformed
resource file), compute the `../val_levels` redirect, require the
instruction and action-space metadata, read `max_steps` from the config,
then dynamically load the environment class.  Every failure raises. -/
def loadEnvWorld (f : EnvFolder) (wid : Nat) : Except String EnvInfo :=
  if !validateLevel f wid then
    .error "Level missing or invalid"
  else
    let redirected := (lookupLevel f.levelsDir wid).isNone &&
      (lookupLevel f.valLevelsDir wid).isSome
    if !(truthy f.agentInstruction && truthy f.actionSpace) then
      .error "Environment missing required files"
    else
      match loadEnv f with
      | .error e => .error e
      | .ok _ =>
          .ok { world_id := wid, redirected := redirected,
                max_step := f.configMaxSteps }

/-- What a solver run returns: the fields `execute` reads out of the result
dict with `or`-defaults. -/
structure RunResult where
  total_reward : Option ℚ
  step : Option Nat
  events_count : List (String × Nat)
deriving Repr, DecidableEq

/-- `run_world` inside `execute`: build the solver, load the env world, run
the solver; any raise propagates out (there is no per-item handler). -/
def runWorld (f : EnvFolder) (solver : Nat → Except String RunResult) (wid : Nat) :
    Except String (Nat × RunResult × EnvInfo) :=
  match loadEnvWorld f wid with
  | .error e => .error e
  | .ok info =>
    match solver wid with
    | .error e => .error e
    | .ok r => .ok (wid, r, info)

/-- Sequencing of fallible per-item computations: all succeed, or the first
failure is re-raised. -/
def mapE {α β : Type} (g : α → Except String β) : List α → Except String (List β)
  | [] => .ok []
  | a :: l =>
    match g a with
    | .error e => .error e
    | .ok b =>
      match mapE g l with
      | .error e => .error e
      | .ok bs => .ok (b :: bs)

/-- `asyncio.gather` over `run_world_with_semaphore`: the batch result is
the list of per-item results, or — since `gather` is called without
`return_exceptions` — the raised error of a failing item. -/
def gatherWorlds (f : EnvFolder) (solver : Nat → Except String RunResult)
    (wids : List Nat) : Except String (List (Nat × RunResult × EnvInfo)) :=
  mapE (runWorld f solver) wids

/-- `_load_max_rewards`: the per-level max-reward mapping, empty when the
`level_max_rewards.json` file is missing or unreadable. -/
def maxRewardsDict (f : EnvFolder) : List (Nat × ℚ) :=
  if f.maxRewardsFileOk then f.maxRewards else []

/-- `max_rewards_dict.get(world_id, 0.0)`. -/
def perWorldMax (f : EnvFolder) (wid : Nat) : ℚ :=
  ((maxRewardsDict f).lookup wid).getD 0

/-- `_calculate_max_reward_total`: the sum over the selected worlds of
their per-world maxima. -/
def maxRewardTotal (f : EnvFolder) (wids : List Nat) : ℚ :=
  (wids.map (perWorldMax f)).sum

/-- One entry of the `world_details` list built in `execute`. -/
structure WorldDetail where
  world_id : Nat
  reward : ℚ
  steps : Nat
  events_count : List (String × Nat)
  max_reward : ℚ
  ratio : Option ℚ
  max_step : Option Nat
deriving Repr, DecidableEq

/-- The detail record for one world as `execute` builds it: defaulted
reward and steps, the per-world max, and the per-world ratio which is
`None` when the max is zero (Python float truthiness). -/
def buildDetail (f : EnvFolder) (x : Nat × RunResult × EnvInfo) : WorldDetail :=
  let reward := x.2.1.total_reward.getD 0
  let maxw := perWorldMax f x.1
  { world_id := x.1
    reward := reward
    steps := x.2.1.step.getD 0
    events_count := x.2.1.events_count
    max_reward := maxw
    ratio := if maxw ≠ 0 then some (reward / maxw) else none
    max_step := x.2.2.max_step }

/-- The flat summary row `_save_env_result_to_csv` composes, numeric fields
over ℚ (timestamp and the serialized event summary are not modelled). -/
structure ResultRow where
  env_folder_path : String
  llm : String
  total_reward : ℚ
  max_reward_total : ℚ
  ratio : Option ℚ
  cost : Option ℚ
  world_count : Nat
  world_ids : List Nat
  avg_reward_per_world : Option ℚ
  total_steps : Nat
  avg_steps_per_world : Option ℚ
  success_worlds : Nat
  duration_seconds : Option ℚ

/-- The row computation of `_save_env_result_to_csv`: batch ratio (absent
when the max total is zero), world list (ids with Python-truthy fallback
from the details), averages guarded by the world count, and the
`ratio >= 0.999` success count. -/
def buildRow (env_path llm_name : String) (total_reward max_reward_total : ℚ)
    (cost : Option ℚ) (details : List WorldDetail) (loaded_world_ids : List Nat)
    (duration : Option ℚ) : ResultRow :=
  let world_ids := if loaded_world_ids ≠ [] then loaded_world_ids
    else (details.map WorldDetail.world_id).filter (fun w => decide (w ≠ 0))
  let world_count := world_ids.length
  let total_steps := (details.map WorldDetail.steps).sum
  let ratio_values := details.filterMap WorldDetail.ratio
  { env_folder_path := env_path
    llm := llm_name
    total_reward := total_reward
    max_reward_total := max_reward_total
    ratio := if max_reward_total ≠ 0 then some (total_reward / max_reward_total)
      else none
    cost := cost
    world_count := world_count
    world_ids := world_ids
    avg_reward_per_world := if world_count ≠ 0 then
      some (total_reward / (world_count : ℚ)) else none
    total_steps := total_steps
    avg_steps_per_world := if world_count ≠ 0 then
      some ((total_steps : ℚ) / (world_count : ℚ)) else none
    success_worlds :=
      (ratio_values.filter (fun v => decide ((999 : ℚ) / 1000 ≤ v))).length
    duration_seconds := duration }

/-- The content of the report CSV: a header and rows of string cells. -/
structure Csv where
  header : List String
  rows : List (List String)
deriving Repr, DecidableEq

/-- The report file on disk: missing, existing but zero-sized, or holding
content (the program always writes a header before any row). -/
inductive FileState
  | missing
  | empty
  | content (c : Csv)
deriving Repr, DecidableEq

/-- `old_row.get(key, "")` for a row laid out under `hdr`. -/
def cellLookup (hdr row : List String) (key : String) : String :=
  match hdr.findIdx? (fun k => k == key) with
  | none => ""
  | some i => row.getD i ""

/-- `csv.DictWriter(..., fieldnames=keys).writerow(row)`: the cells in key
order, with `""` for a key the row lacks. -/
def rowCells (keys : List String) (row : List (String × String)) : List String :=
  keys.map (fun k => (row.lookup k).getD "")

/-- The schema-migration block of `_save_env_result_to_csv`: when the
existing header differs from the new row's keys, rewrite the whole store
(into a temporary file that then atomically replaces the old one via
`shutil.move`) under the new header, each old row re-laid-out with
`old_row.get(key, "")`. -/
def migrateCsv (keys : List String) (c : Csv) : Csv :=
  if c.header ≠ keys then
    { header := keys
      rows := c.rows.map (fun old => keys.map (cellLookup c.header old)) }
  else c

/-- The full file effect of `_save_env_result_to_csv` on an already-composed
row when all I/O succeeds: migrate if needed, then append the row, writing
the header first exactly when the file was missing or empty. -/
def saveRowToCsv (row : List (String × String)) (fs : FileState) : Csv :=
  let keys := row.map Prod.fst
  match fs with
  | .missing => { header := keys, rows := [rowCells keys row] }
  | .empty => { header := keys, rows := [rowCells keys row] }
  | .content c =>
      let c1 := migrateCsv keys c
      { header := c1.header, rows := c1.rows ++ [rowCells keys row] }

/-- Which I/O steps of the persistence call succeed. -/
structure SaveOutcome where
  readOk : Bool
  appendOk : Bool
deriving Repr, DecidableEq

/-- `_save_env_result_to_csv` with failure injection: an exception anywhere
in the read-and-migrate block is swallowed (`except Exception: pass`,
leaving the store as it was thanks to the temp-file-then-move design),
while a failure of the final append propagates to the caller. -/
def saveRowToCsvE (row : List (String × String)) (fs : FileState)
    (oc : SaveOutcome) : Except String FileState :=
  let keys := row.map Prod.fst
  match fs with
  | .missing =>
      if oc.appendOk then
        .ok (.content { header := keys, rows := [rowCells keys row] })
      else .error "append failed"
  | .empty =>
      if oc.appendOk then
        .ok (.content { header := keys, rows := [rowCells keys row] })
      else .error "append failed"
  | .content c =>
      let c1 := if oc.readOk then migrateCsv keys c else c
      if oc.appendOk then
        .ok (.content { header := c1.header, rows := c1.rows ++ [rowCells keys row] })
      else .error "append failed"

/-- `Benchmark.execute` end to end over the model state: select the worlds,
compute the max-reward total, gather all per-world runs (a failure of any
item propagates out of `asyncio.gather`), fold the details and totals,
build the summary row and persist it.  Returns the details, the reward
total, the max total, and the new report state.  `rowOf` abstracts the
string rendering of the row for the CSV. -/
def executeModel (f : EnvFolder) (solver : Nat → Except String RunResult)
    (world_mode : String) (max_worlds : Option Nat)
    (env_path llm_name : String) (cost : Option ℚ) (duration : Option ℚ)
    (rowOf : ResultRow → List (String × String))
    (fs : FileState) (oc : SaveOutcome) :
    Except String (List WorldDetail × ℚ × ℚ × FileState) :=
  let wids := selectWorlds f world_mode max_worlds
  let maxTotal := maxRewardTotal f wids
  match gatherWorlds f solver wids with
  | .error e => .error e
  | .ok raw =>
      let details := raw.map (buildDetail f)
      let total := (raw.map (fun x => x.2.1.total_reward.getD 0)).sum
      let row := buildRow env_path llm_name total maxTotal cost details wids duration
      match saveRowToCsvE (rowOf row) fs oc with
      | .error e => .error e
      | .ok fs2 => .ok (details, total, maxTotal, fs2)

/-- The cooperative-scheduling state of one `execute` batch: which work
items still wait for the admission gate, which are in flight between
acquiring and releasing the semaphore, which are finished, and the
semaphore's free count. -/
structure SemState where
  waiting : Finset Nat
  running : Finset Nat
  done : Finset Nat
  sem : Nat
deriving DecidableEq

/-- The interleaving semantics of `run_world_with_semaphore`: a task may
start once `async with semaphore` admits it (the count is positive), and a
finishing task — successfully or by raising — releases the count on the way
out of the scoped `async with`. -/
inductive SemStep : SemState → SemState → Prop
  | start (t : Nat) (s : SemState) (ht : t ∈ s.waiting) (hs : 0 < s.sem) :
      SemStep s ⟨s.waiting.erase t, insert t s.running, s.done, s.sem - 1⟩
  | finish (t : Nat) (s : SemState) (success : Bool) (ht : t ∈ s.running) :
      SemStep s ⟨s.waiting, s.running.erase t, insert t s.done, s.sem + 1⟩

/-- All tasks scheduled up front, none started, the gate sized to the
concurrency bound: `asyncio.Semaphore(world_concurrency)`. -/
def initSemState (tasks : Finset Nat) (K : Nat) : SemState :=
  ⟨tasks, ∅, ∅, K⟩

/-- The states one batch can pass through. -/
def SemReachable (tasks : Finset Nat) (K : Nat) (s : SemState) : Prop :=
  Relation.ReflTransGen SemStep (initSemState tasks K) s

/-- The process-global state `_load_env` and `EnvWrapper` manipulate. -/
structure PState where
  cwd : String
  sysPath : List String
deriving Repr, DecidableEq

/-- `Benchmark._load_env`'s process-state discipline: raise before touching
anything when `env_main.py` is missing; otherwise push the workload
directory onto `sys.path` unless already present, execute the module with
the workload directory as cwd, and in the `finally` block restore the
saved cwd and remove the directory from `sys.path` (one occurrence) —
whether the load succeeded or raised. -/
def loadEnvState (envDir : String) (f : EnvFolder) (s : PState) :
    Except String Unit × PState :=
  if !f.envMainExists then (.error "env_main not found", s)
  else
    let path1 := if envDir ∈ s.sysPath then s.sysPath else envDir :: s.sysPath
    let sOut : PState := { cwd := s.cwd, sysPath := path1.erase envDir }
    if !f.execOk then (.error "Failed to load env module", sOut)
    else if !f.subclassFound then (.error "No valid SkinEnv subclass found", sOut)
    else (.ok (), sOut)

/-- `EnvWrapper.__getattr__`'s `wrapped_method`: run the proxied method
with the env folder as the current working directory and restore the
caller's cwd afterwards (`finally`), whether the method returns or
raises. -/
def wrappedCall {α : Type} (envDir : String)
    (method : PState → Except String α × PState) (s : PState) :
    Except String α × PState :=
  let r := method { s with cwd := envDir }
  (r.1, { r.2 with cwd := s.cwd })

/-- A workload with five levels of which level 2's resource file fails to
parse; every metadata and definition file is fine. -/
def ex5F : EnvFolder :=
  { levelsDir := some [(0, true), (1, true), (2, false), (3, true), (4, true)]
    valLevelsDir := none
    envMainExists := true
    execOk := true
    subclassFound := true
    agentInstruction := some "instr"
    actionSpace := some "act"
    configMaxSteps := some 10
    maxRewardsFileOk := true
    maxRewards := [(0, 2), (1, 2), (2, 2), (3, 2), (4, 2)] }

/-- The same workload with every level valid. -/
def exOkF : EnvFolder :=
  { ex5F with
    levelsDir := some [(0, true), (1, true), (2, true), (3, true), (4, true)] }

/-- A solver that always succeeds with reward 1 in 3 steps. -/
def exSolver : Nat → Except String RunResult :=
  fun _ => .ok { total_reward := some 1, step := some 3, events_count := [] }

/-- A trivial row rendering; the string serialization of the row is
irrelevant to the control-flow claims. -/
def exRowOf : ResultRow → List (String × String) :=
  fun _ => []

/-- A concrete successful solver result. -/
def exRun : RunResult :=
  { total_reward := some 1, step := some 3, events_count := [] }

/-- A concrete `env_info` for world 7 (a world with no max-reward entry). -/
def exInfo7 : EnvInfo :=
  { world_id := 7, redirected := false, max_step := some 10 }

/-- A pre-existing report store with columns a, b, c and two rows (the
spec's scenario D). -/
def exOldCsv : Csv :=
  { header := ["a", "b", "c"], rows := [["1", "2", "3"], ["4", "5", "6"]] }

/-- A new row with the drifted layout a, b, c, d. -/
def exNewRow : List (String × String) :=
  [("a", "A"), ("b", "B"), ("c", "C"), ("d", "D")]

end AutoEnvProof

namespace AutoEnvProof

/-! ## Theorems: graph collection (`_collect_nodes`) -/

theorem find?_spec {g : PGraph} {i : Nat} {n : PNode} (h : g.find? i = some n) :
    n ∈ g.nodes ∧ n.node_id = i := by
  refine ⟨List.mem_of_find?_eq_some h, ?_⟩
  have := List.find?_some h
  simpa using this

theorem find?_isSome_of_mem {g : PGraph} {i : Nat} (h : i ∈ g.idList) :
    ∃ n, g.find? i = some n := by
  obtain ⟨n, hn, hid⟩ := List.mem_map.1 h
  have : (g.nodes.find? (fun m => m.node_id == i)).isSome :=
    List.find?_isSome.2 ⟨n, hn, by simp [hid]⟩
  obtain ⟨m, hm⟩ := Option.isSome_iff_exists.1 this
  exact ⟨m, hm⟩

theorem succOf_subset_ids {g : PGraph} (hwf : WellFormed g) {x : Nat}
    (hx : x ∈ g.idList) : ∀ s ∈ g.succOf x, s ∈ g.idList := by
  obtain ⟨n, hn⟩ := find?_isSome_of_mem hx
  obtain ⟨hmem, _⟩ := find?_spec hn
  intro s hs
  rw [PGraph.succOf, hn] at hs
  exact hwf.2.2.1 n hmem s hs

theorem predOf_subset_ids {g : PGraph} (hwf : WellFormed g) {x : Nat}
    (hx : x ∈ g.idList) : ∀ p ∈ g.predOf x, p ∈ g.idList := by
  obtain ⟨n, hn⟩ := find?_isSome_of_mem hx
  obtain ⟨hmem, _⟩ := find?_spec hn
  intro p hp
  rw [PGraph.predOf, hn] at hp
  exact hwf.2.2.2.1 n hmem p hp

theorem succOf_nodup {g : PGraph} (hwf : WellFormed g) (x : Nat) :
    (g.succOf x).Nodup := by
  rw [PGraph.succOf]
  cases h : g.find? x with
  | none => simp
  | some n => exact (find?_spec h).1 |> hwf.2.2.2.2.1 n

theorem predOf_nodup {g : PGraph} (hwf : WellFormed g) (x : Nat) :
    (g.predOf x).Nodup := by
  rw [PGraph.predOf]
  cases h : g.find? x with
  | none => simp
  | some n => exact (find?_spec h).1 |> hwf.2.2.2.2.2.1 n

theorem edge_src_mem {g : PGraph} {a b : Nat} (h : Edge g a b) : a ∈ g.idList := by
  rw [Edge, PGraph.succOf] at h
  cases hf : g.find? a with
  | none => rw [hf] at h; simp at h
  | some n =>
      obtain ⟨hmem, hid⟩ := find?_spec hf
      exact hid ▸ List.mem_map_of_mem PNode.node_id hmem

theorem dfsFold_extends {g : PGraph} (fuel : Nat)
    (h : ∀ x acc, acc <+: dfsAux g fuel x acc) :
    ∀ (l : List Nat) (acc : List Nat),
      acc <+: List.foldl (fun a s => dfsAux g fuel s a) acc l := by
  intro l
  induction l with
  | nil => intro acc; exact List.prefix_rfl
  | cons s l ih =>
      intro acc
      exact (h s acc).trans (ih (dfsAux g fuel s acc))

theorem dfsAux_extends (g : PGraph) :
    ∀ (fuel x : Nat) (acc : List Nat), acc <+: dfsAux g fuel x acc
  | 0, _, _ => List.prefix_rfl
  | fuel + 1, x, acc => by
    rw [dfsAux]
    split
    · exact List.prefix_rfl
    · exact (List.prefix_append acc [x]).trans
        (dfsFold_extends fuel (fun y a => dfsAux_extends g fuel y a) _ _)

theorem mem_dfsAux_self (g : PGraph) {fuel : Nat} (hf : 0 < fuel) (x : Nat)
    (acc : List Nat) : x ∈ dfsAux g fuel x acc := by
  cases fuel with
  | zero => omega
  | succ fuel =>
      rw [dfsAux]
      split
      · assumption
      · refine (dfsFold_extends fuel (fun y a => dfsAux_extends g fuel y a) _ _).subset ?_
        simp

theorem dfsFold_sound {g : PGraph} (fuel : Nat)
    (ih : ∀ x acc, Reaches g x → (∀ y ∈ acc, Reaches g y) →
      ∀ y ∈ dfsAux g fuel x acc, Reaches g y) :
    ∀ (l acc : List Nat), (∀ s ∈ l, Reaches g s) → (∀ y ∈ acc, Reaches g y) →
      ∀ y ∈ List.foldl (fun a s => dfsAux g fuel s a) acc l, Reaches g y := by
  intro l
  induction l with
  | nil => intro acc _ hacc y hy; exact hacc y hy
  | cons s l ihl =>
      intro acc hl hacc y hy
      exact ihl (dfsAux g fuel s acc) (fun t ht => hl t (by simp [ht]))
        (ih s acc (hl s (by simp)) hacc) y hy

theorem dfsAux_sound (g : PGraph) :
    ∀ (fuel x : Nat) (acc : List Nat), Reaches g x → (∀ y ∈ acc, Reaches g y) →
      ∀ y ∈ dfsAux g fuel x acc, Reaches g y
  | 0, _, _ => fun _ hacc y hy => hacc y hy
  | fuel + 1, x, acc => by
    intro hx hacc y hy
    rw [dfsAux] at hy
    split at hy
    · exact hacc y hy
    · refine dfsFold_sound fuel (fun z a => dfsAux_sound g fuel z a) _ _
        (fun s hs => Reaches.step hx hs) ?_ y hy
      intro z hz
      rcases List.mem_append.1 hz with h | h
      · exact hacc z h
      · simpa using List.mem_singleton.1 h ▸ hx

theorem dfsFold_nodup {g : PGraph} (fuel : Nat)
    (ih : ∀ x acc, acc.Nodup → (dfsAux g fuel x acc).Nodup) :
    ∀ (l acc : List Nat), acc.Nodup →
      (List.foldl (fun a s => dfsAux g fuel s a) acc l).Nodup := by
  intro l
  induction l with
  | nil => intro acc h; exact h
  | cons s l ihl => intro acc h; exact ihl (dfsAux g fuel s acc) (ih s acc h)

theorem dfsAux_nodup (g : PGraph) :
    ∀ (fuel x : Nat) (acc : List Nat), acc.Nodup → (dfsAux g fuel x acc).Nodup
  | 0, _, _ => fun h => h
  | fuel + 1, x, acc => by
    intro hacc
    rw [dfsAux]
    split
    · exact hacc
    · refine dfsFold_nodup fuel (fun z a => dfsAux_nodup g fuel z a) _ _ ?_
      simpa [List.nodup_append] using ⟨hacc, by assumption⟩

theorem dfsFold_ids {g : PGraph} (fuel : Nat)
    (ih : ∀ x acc, x ∈ g.idList → (∀ y ∈ acc, y ∈ g.idList) →
      ∀ y ∈ dfsAux g fuel x acc, y ∈ g.idList) :
    ∀ (l acc : List Nat), (∀ s ∈ l, s ∈ g.idList) → (∀ y ∈ acc, y ∈ g.idList) →
      ∀ y ∈ List.foldl (fun a s => dfsAux g fuel s a) acc l, y ∈ g.idList := by
  intro l
  induction l with
  | nil => intro acc _ hacc y hy; exact hacc y hy
  | cons s l ihl =>
      intro acc hl hacc y hy
      exact ihl (dfsAux g fuel s acc) (fun t ht => hl t (by simp [ht]))
        (ih s acc (hl s (by simp)) hacc) y hy

theorem dfsAux_ids {g : PGraph} (hwf : WellFormed g) :
    ∀ (fuel x : Nat) (acc : List Nat), x ∈ g.idList → (∀ y ∈ acc, y ∈ g.idList) →
      ∀ y ∈ dfsAux g fuel x acc, y ∈ g.idList
  | 0, _, _ => fun _ hacc y hy => hacc y hy
  | fuel + 1, x, acc => by
    intro hx hacc y hy
    rw [dfsAux] at hy
    split at hy
    · exact hacc y hy
    · refine dfsFold_ids fuel (fun z a => dfsAux_ids hwf fuel z a) _ _
        (succOf_subset_ids hwf hx) ?_ y hy
      intro z hz
      rcases List.mem_append.1 hz with h | h
      · exact hacc z h
      · exact List.mem_singleton.1 h ▸ hx

theorem newCard_mono {g : PGraph} {acc acc' : List Nat}
    (h : ∀ y ∈ acc, y ∈ acc') : newCard g acc' ≤ newCard g acc := by
  apply Finset.card_le_card
  intro i hi
  rw [Finset.mem_sdiff] at hi ⊢
  refine ⟨hi.1, fun hmem => hi.2 ?_⟩
  rw [List.mem_toFinset] at hmem ⊢
  exact h i hmem

theorem newCard_push {g : PGraph} {acc : List Nat} {x : Nat}
    (hx : x ∈ g.idList) (hnx : x ∉ acc) :
    newCard g (acc ++ [x]) < newCard g acc := by
  have hset : g.idList.toFinset \ (acc ++ [x]).toFinset =
      (g.idList.toFinset \ acc.toFinset).erase x := by
    ext i
    simp only [Finset.mem_sdiff, Finset.mem_erase, List.mem_toFinset, List.mem_append,
      List.mem_singleton]
    tauto
  rw [newCard, hset]
  exact Finset.card_erase_lt_of_mem (by
    rw [Finset.mem_sdiff, List.mem_toFinset, List.mem_toFinset]
    exact ⟨hx, hnx⟩)

theorem dfsFold_closed {g : PGraph} (hwf : WellFormed g) (fuel : Nat)
    (ih : ∀ x acc, x ∈ g.idList → (∀ y ∈ acc, y ∈ g.idList) → newCard g acc < fuel →
      ∀ y ∈ dfsAux g fuel x acc, y ∈ acc ∨ ∀ s ∈ g.succOf y, s ∈ dfsAux g fuel x acc) :
    ∀ (l acc : List Nat), (∀ s ∈ l, s ∈ g.idList) → (∀ y ∈ acc, y ∈ g.idList) →
      newCard g acc < fuel →
      (∀ y ∈ List.foldl (fun a s => dfsAux g fuel s a) acc l,
        y ∈ acc ∨ ∀ s ∈ g.succOf y, s ∈ List.foldl (fun a s => dfsAux g fuel s a) acc l) ∧
      (∀ s ∈ l, s ∈ List.foldl (fun a s => dfsAux g fuel s a) acc l) := by
  intro l
  induction l with
  | nil =>
      intro acc _ _ _
      exact ⟨fun y hy => Or.inl hy, by simp⟩
  | cons s l ihl =>
      intro acc hl hacc hcard
      have hs : s ∈ g.idList := hl s (by simp)
      have hpre1 : acc <+: dfsAux g fuel s acc := dfsAux_extends g fuel s acc
      have ha1 : ∀ y ∈ dfsAux g fuel s acc, y ∈ g.idList :=
        dfsAux_ids hwf fuel s acc hs hacc
      have hcard1 : newCard g (dfsAux g fuel s acc) < fuel :=
        lt_of_le_of_lt (newCard_mono (fun y hy => hpre1.subset hy)) hcard
      have hih1 := ih s acc hs hacc hcard
      obtain ⟨hC, hM⟩ := ihl (dfsAux g fuel s acc) (fun t ht => hl t (by simp [ht])) ha1 hcard1
      have hpre2 : dfsAux g fuel s acc <+:
          List.foldl (fun a z => dfsAux g fuel z a) (dfsAux g fuel s acc) l :=
        dfsFold_extends fuel (fun z a => dfsAux_extends g fuel z a) _ _
      constructor
      · intro y hy
        rcases hC y hy with h1 | h1
        · rcases hih1 y h1 with h2 | h2
          · exact Or.inl h2
          · exact Or.inr (fun t ht => hpre2.subset (h2 t ht))
        · exact Or.inr h1
      · intro t ht
        rcases List.mem_cons.1 ht with h1 | h1
        · subst h1
          exact hpre2.subset (mem_dfsAux_self g (by omega) t acc)
        · exact hM t h1

theorem dfsAux_closed {g : PGraph} (hwf : WellFormed g) :
    ∀ (fuel x : Nat) (acc : List Nat),
      x ∈ g.idList → (∀ y ∈ acc, y ∈ g.idList) → newCard g acc < fuel →
      ∀ y ∈ dfsAux g fuel x acc, y ∈ acc ∨ ∀ s ∈ g.succOf y, s ∈ dfsAux g fuel x acc
  | 0 => by intro x acc _ _ h; omega
  | fuel + 1 => by
    intro x acc hx hacc hcard y hy
    rw [dfsAux] at hy ⊢
    split at hy
    · exact Or.inl hy
    · rename_i hnx
      have hacc' : ∀ z ∈ acc ++ [x], z ∈ g.idList := by
        intro z hz
        rcases List.mem_append.1 hz with h | h
        · exact hacc z h
        · exact List.mem_singleton.1 h ▸ hx
      have hcard' : newCard g (acc ++ [x]) < fuel := by
        have := newCard_push hx hnx
        omega
      obtain ⟨hC, hM⟩ := dfsFold_closed hwf fuel
        (fun z a hz ha hc => dfsAux_closed hwf fuel z a hz ha hc)
        (g.succOf x) (acc ++ [x]) (succOf_subset_ids hwf hx) hacc' hcard'
      simp only [hnx, if_false]
      rcases hC y (by simpa [hnx] using hy) with h1 | h1
      · rcases List.mem_append.1 h1 with h2 | h2
        · exact Or.inl h2
        · refine Or.inr ?_
          rw [List.mem_singleton.1 h2]
          exact hM
      · exact Or.inr h1

theorem collect_subset_ids {g : PGraph} (hwf : WellFormed g) :
    ∀ y ∈ collectNodes g, y ∈ g.idList :=
  dfsAux_ids hwf _ _ _ hwf.1 (by simp)

theorem collect_nodup (g : PGraph) : (collectNodes g).Nodup :=
  dfsAux_nodup g _ _ _ List.nodup_nil

theorem root_mem_collect (g : PGraph) : g.root ∈ collectNodes g :=
  mem_dfsAux_self g (by omega) _ _

theorem collect_sound {g : PGraph} : ∀ y ∈ collectNodes g, Reaches g y :=
  dfsAux_sound g _ _ _ (Reaches.root) (by simp)

theorem collect_closed {g : PGraph} (hwf : WellFormed g) :
    ∀ y ∈ collectNodes g, ∀ s ∈ g.succOf y, s ∈ collectNodes g := by
  intro y hy
  have hcard : newCard g [] < g.nodes.length + 1 := by
    have h1 : (g.idList.toFinset).card ≤ g.idList.length := g.idList.toFinset_card_le
    have h2 : g.idList.length = g.nodes.length := by simp [PGraph.idList]
    simp only [newCard, List.toFinset_nil, Finset.sdiff_empty]
    omega
  rcases dfsAux_closed hwf (g.nodes.length + 1) g.root [] hwf.1 (by simp) hcard y hy with h | h
  · simp at h
  · exact h

theorem collect_complete {g : PGraph} (hwf : WellFormed g) {y : Nat}
    (h : Reaches g y) : y ∈ collectNodes g := by
  induction h with
  | root => exact root_mem_collect g
  | step ha hs ih => exact collect_closed hwf _ ih _ hs

theorem collect_iff {g : PGraph} (hwf : WellFormed g) (y : Nat) :
    y ∈ collectNodes g ↔ Reaches g y :=
  ⟨fun h => collect_sound y h, fun h => collect_complete hwf h⟩

theorem reaches_mem_ids {g : PGraph} (hwf : WellFormed g) {y : Nat}
    (h : Reaches g y) : y ∈ g.idList :=
  collect_subset_ids hwf y (collect_complete hwf h)

/-! ## Theorems: list and counting utilities for the scheduler loop -/

theorem mem_readyList {nodes : List Nat} {inDeg : Nat → Int} {executed : List Nat}
    {v : Nat} : v ∈ readyList nodes inDeg executed ↔
      v ∈ nodes ∧ inDeg v = 0 ∧ v ∉ executed := by
  simp [readyList, List.mem_filter, and_assoc]

theorem readyList_nodup {nodes : List Nat} (h : nodes.Nodup)
    (inDeg : Nat → Int) (executed : List Nat) :
    (readyList nodes inDeg executed).Nodup :=
  h.filter _

theorem foldl_update_dec (v : Nat) :
    ∀ (l : List Nat) (d : Nat → Int),
      (l.foldl (fun d2 s => Function.update d2 s (d2 s - 1)) d) v =
        d v - (l.count v : Int)
  | [], d => by simp
  | a :: l, d => by
    rw [List.foldl_cons, foldl_update_dec v l]
    rcases eq_or_ne v a with h | h
    · subst h
      simp [Function.update_apply, List.count_cons]
      omega
    · simp [Function.update_apply, h, List.count_cons, Ne.symm h]

theorem decSuccs_apply (g : PGraph) (v : Nat) :
    ∀ (ready : List Nat) (inDeg : Nat → Int),
      decSuccs g inDeg ready v =
        inDeg v - ((ready.map (fun nid => ((g.succOf nid).count v : Int))).sum)
  | [], inDeg => by simp [decSuccs]
  | r :: rest, inDeg => by
    have h1 := decSuccs_apply g v rest
      ((g.succOf r).foldl (fun d2 s => Function.update d2 s (d2 s - 1)) inDeg)
    rw [decSuccs, List.foldl_cons] at *
    rw [h1, foldl_update_dec v (g.succOf r) inDeg]
    simp
    ring

theorem sum_count_eq_filter_length {g : PGraph} (hwf : WellFormed g) (v : Nat) :
    ∀ ready : List Nat,
      (ready.map (fun nid => ((g.succOf nid).count v : Int))).sum =
        ((ready.filter (fun nid => decide (v ∈ g.succOf nid))).length : Int)
  | [] => by simp
  | r :: rest => by
    have ih := sum_count_eq_filter_length hwf v rest
    simp only [List.map_cons, List.sum_cons, List.filter_cons]
    by_cases h : v ∈ g.succOf r
    · rw [List.count_eq_one_of_mem (succOf_nodup hwf r) h]
      simp [h, ih]
      ring
    · rw [List.count_eq_zero.2 h]
      simp [h, ih]

theorem filter_mem_length_comm {l1 l2 : List Nat} (h1 : l1.Nodup) (h2 : l2.Nodup) :
    (l1.filter (fun a => decide (a ∈ l2))).length =
      (l2.filter (fun a => decide (a ∈ l1))).length := by
  have e1 : (l1.filter (fun a => decide (a ∈ l2))).toFinset =
      l1.toFinset ∩ l2.toFinset := by
    ext a
    simp [List.mem_filter]
  have e2 : (l2.filter (fun a => decide (a ∈ l1))).toFinset =
      l2.toFinset ∩ l1.toFinset := by
    ext a
    simp [List.mem_filter]
  rw [← List.toFinset_card_of_nodup (h1.filter _),
    ← List.toFinset_card_of_nodup (h2.filter _), e1, e2, Finset.inter_comm]

theorem filter_or_length {e r : List Nat}
    (hdisj : ∀ x, x ∈ e → x ∉ r) :
    ∀ l : List Nat,
      (l.filter (fun p => decide (p ∈ e) || decide (p ∈ r))).length =
        (l.filter (fun p => decide (p ∈ e))).length +
          (l.filter (fun p => decide (p ∈ r))).length
  | [] => by simp
  | a :: l => by
    have ih := filter_or_length hdisj l
    simp only [List.filter_cons]
    by_cases he : a ∈ e
    · have hr : a ∉ r := hdisj a he
      simp [he, hr, ih]
      omega
    · by_cases hr : a ∈ r
      · simp [he, hr, ih]
        omega
      · simp [he, hr, ih]

theorem filter_append_mem_length {e r : List Nat}
    (hdisj : ∀ x, x ∈ e → x ∉ r) (l : List Nat) :
    (l.filter (fun p => decide (p ∈ e ++ r))).length =
      (l.filter (fun p => decide (p ∈ e))).length +
        (l.filter (fun p => decide (p ∈ r))).length := by
  have hfun : (fun p => decide (p ∈ e ++ r)) =
      (fun p => decide (p ∈ e) || decide (p ∈ r)) := by
    funext p
    simp [List.mem_append]
  rw [hfun]
  exact filter_or_length hdisj l

theorem all_of_filter_length_eq {p : Nat → Bool} :
    ∀ l : List Nat, (l.filter p).length = l.length → ∀ a ∈ l, p a
  | [], _, a, ha => absurd ha (List.not_mem_nil a)
  | b :: l, h, a, ha => by
    by_cases hb : p b
    · rcases List.mem_cons.1 ha with h1 | h1
      · exact h1 ▸ hb
      · refine all_of_filter_length_eq l ?_ a h1
        simpa [List.filter_cons, hb] using h
    · exfalso
      have hle := List.length_filter_le p l
      simp [List.filter_cons, hb] at h
      omega

theorem filter_length_lt_of_missing {p : Nat → Bool} {l : List Nat} {a : Nat}
    (ha : a ∈ l) (hpa : ¬ p a) : (l.filter p).length < l.length := by
  rcases Nat.lt_or_ge (l.filter p).length l.length with h | h
  · exact h
  · exfalso
    have := all_of_filter_length_eq l (Nat.le_antisymm (List.length_filter_le p l) h) a ha
    exact hpa this

theorem length_lt_of_missing {e nodes : List Nat} {x : Nat} (he : e.Nodup)
    (hsub : ∀ y ∈ e, y ∈ nodes) (hx : x ∈ nodes) (hnx : x ∉ e) :
    e.length < nodes.length := by
  have h1 : e.toFinset ⊆ nodes.toFinset.erase x := by
    intro y hy
    rw [List.mem_toFinset] at hy
    rw [Finset.mem_erase, List.mem_toFinset]
    exact ⟨fun hxy => hnx (hxy ▸ hy), hsub y hy⟩
  have h2 : e.toFinset.card ≤ (nodes.toFinset.erase x).card := Finset.card_le_card h1
  have h3 : (nodes.toFinset.erase x).card < nodes.toFinset.card :=
    Finset.card_erase_lt_of_mem (List.mem_toFinset.2 hx)
  have h4 : e.toFinset.card = e.length := List.toFinset_card_of_nodup he
  have h5 : nodes.toFinset.card ≤ nodes.length := nodes.toFinset_card_le
  omega

theorem mem_iff_of_full {e nodes : List Nat} (he : e.Nodup)
    (hsub : ∀ y ∈ e, y ∈ nodes) (hlen : nodes.length ≤ e.length) :
    ∀ y, y ∈ e ↔ y ∈ nodes := by
  have h1 : e.toFinset ⊆ nodes.toFinset := by
    intro y hy
    rw [List.mem_toFinset] at hy ⊢
    exact hsub y hy
  have h4 : e.toFinset.card = e.length := List.toFinset_card_of_nodup he
  have h5 : nodes.toFinset.card ≤ nodes.length := nodes.toFinset_card_le
  have h2 : e.toFinset = nodes.toFinset :=
    Finset.eq_of_subset_of_card_le h1 (by omega)
  intro y
  rw [← List.mem_toFinset, h2, List.mem_toFinset]

/-! ## Theorems: the scheduler loop of `BasePipeline.run` -/

theorem readyList_disjoint {nodes : List Nat} {inDeg : Nat → Int}
    {executed : List Nat} : ∀ v ∈ executed, v ∉ readyList nodes inDeg executed := by
  intro v hv hr
  exact (mem_readyList.1 hr).2.2 hv

theorem execInv_init {g : PGraph} {nodes : List Nat} :
    ExecInv g nodes (fun i => ((g.predOf i).length : Int)) [] := by
  refine ⟨by simp, List.nodup_nil, ?_⟩
  intro _v _
  simp

theorem execInv_step {g : PGraph} (hwf : WellFormed g) {nodes : List Nat}
    (hnodup : nodes.Nodup) (hids : ∀ v ∈ nodes, v ∈ g.idList)
    {inDeg : Nat → Int} {executed : List Nat}
    (hinv : ExecInv g nodes inDeg executed) :
    ExecInv g nodes (decSuccs g inDeg (readyList nodes inDeg executed))
      (executed ++ readyList nodes inDeg executed) := by
  obtain ⟨hsub, hnd, hdeg⟩ := hinv
  set ready := readyList nodes inDeg executed with hready
  have hready_sub : ∀ v ∈ ready, v ∈ nodes := fun v hv => (mem_readyList.1 hv).1
  have hready_nd : ready.Nodup := readyList_nodup hnodup inDeg executed
  have hdisj : ∀ v ∈ executed, v ∉ ready := readyList_disjoint
  refine ⟨?_, ?_, ?_⟩
  · intro y hy
    rcases List.mem_append.1 hy with h | h
    · exact hsub y h
    · exact hready_sub y h
  · exact List.nodup_append.2 ⟨hnd, hready_nd, hdisj⟩
  · intro v hv
    have hvid : v ∈ g.idList := hids v hv
    rw [decSuccs_apply, sum_count_eq_filter_length hwf]
    have hcongr : ready.filter (fun nid => decide (v ∈ g.succOf nid)) =
        ready.filter (fun nid => decide (nid ∈ g.predOf v)) := by
      apply List.filter_congr
      intro nid hnid
      have hnidid : nid ∈ g.idList := hids nid (hready_sub nid hnid)
      simp only [decide_eq_decide]
      exact hwf.2.2.2.2.2.2 nid hnidid v hvid
    have hcomm : (ready.filter (fun nid => decide (nid ∈ g.predOf v))).length =
        ((g.predOf v).filter (fun p => decide (p ∈ ready))).length :=
      filter_mem_length_comm hready_nd (predOf_nodup hwf v)
    have hsplit := filter_append_mem_length hdisj (g.predOf v)
    rw [hdeg v hv, hcongr, hcomm]
    omega

theorem cycle_not_ready {g : PGraph} {nodes : List Nat} {inDeg : Nat → Int}
    {executed : List Nat} {C : Nat → Prop}
    (hinv : ExecInv g nodes inDeg executed)
    (hCpred : ∀ y, C y → ∃ p, C p ∧ p ∈ g.predOf y)
    (hCexec : ∀ y, C y → y ∉ executed) :
    ∀ y, C y → y ∉ readyList nodes inDeg executed := by
  intro y hy hr
  obtain ⟨hmem, hzero, _⟩ := mem_readyList.1 hr
  obtain ⟨p, hCp, hppred⟩ := hCpred y hy
  have hpnot : p ∉ executed := hCexec p hCp
  have hlt : ((g.predOf y).filter (fun q => decide (q ∈ executed))).length <
      (g.predOf y).length :=
    filter_length_lt_of_missing hppred (by simpa using hpnot)
  have := hinv.2.2 y hmem
  omega

theorem runLoop_stuck {g : PGraph} (hwf : WellFormed g) {nodes : List Nat}
    (hnodup : nodes.Nodup) (hids : ∀ v ∈ nodes, v ∈ g.idList)
    (C : Nat → Prop) (x0 : Nat) (hx0 : C x0)
    (hCmem : ∀ y, C y → y ∈ nodes)
    (hCpred : ∀ y, C y → ∃ p, C p ∧ p ∈ g.predOf y) :
    ∀ (fuel : Nat) (inDeg : Nat → Int) (executed : List Nat)
      (sched : List (List Nat)),
      ExecInv g nodes inDeg executed → (∀ y, C y → y ∉ executed) →
      nodes.length < executed.length + fuel →
      runLoop g nodes fuel inDeg executed sched = .error "Cycle detected in DAG"
  | 0, inDeg, executed, sched => by
    intro hinv hCexec hfuel
    have := length_lt_of_missing hinv.2.1 hinv.1 (hCmem x0 hx0) (hCexec x0 hx0)
    omega
  | fuel + 1, inDeg, executed, sched => by
    intro hinv hCexec hfuel
    have hlt : executed.length < nodes.length :=
      length_lt_of_missing hinv.2.1 hinv.1 (hCmem x0 hx0) (hCexec x0 hx0)
    rw [runLoop, if_pos hlt]
    by_cases hre : (readyList nodes inDeg executed).isEmpty
    · simp [hre]
    · simp only [hre, if_false]
      have hready_len : 0 < (readyList nodes inDeg executed).length :=
        List.length_pos.2 (by simpa [List.isEmpty_iff] using hre)
      apply runLoop_stuck hwf hnodup hids C x0 hx0 hCmem hCpred fuel
      · exact execInv_step hwf hnodup hids hinv
      · intro y hy hmem
        rcases List.mem_append.1 hmem with h | h
        · exact hCexec y hy h
        · exact cycle_not_ready hinv hCpred hCexec y hy h
      · rw [List.length_append]
        omega

theorem reaches_of_reflTransGen {g : PGraph} {a b : Nat} (h : Reaches g a)
    (hr : Relation.ReflTransGen (Edge g) a b) : Reaches g b := by
  induction hr with
  | refl => exact h
  | tail _ h2 ih => exact Reaches.step ih h2

theorem cycle_pred_system {g : PGraph} (hwf : WellFormed g) {x : Nat}
    (hreach : Reaches g x) (hcyc : Relation.TransGen (Edge g) x x) :
    ∃ C : Nat → Prop, C x ∧ (∀ y, C y → Reaches g y) ∧
      (∀ y, C y → ∃ p, C p ∧ p ∈ g.predOf y) := by
  refine ⟨fun y => Relation.ReflTransGen (Edge g) x y ∧
    Relation.ReflTransGen (Edge g) y x, ⟨.refl, .refl⟩, ?_, ?_⟩
  · intro y hy
    exact reaches_of_reflTransGen hreach hy.1
  · intro y hy
    obtain ⟨hxy, hyx⟩ := hy
    have hedge : ∃ p, Relation.ReflTransGen (Edge g) x p ∧ Edge g p y := by
      rcases Relation.reflTransGen_iff_eq_or_transGen.1 hxy with heq | htg
      · obtain ⟨p, hp1, hp2⟩ := Relation.TransGen.tail'_iff.1 hcyc
        exact ⟨p, hp1, heq ▸ hp2⟩
      · obtain ⟨p, hp1, hp2⟩ := Relation.TransGen.tail'_iff.1 htg
        exact ⟨p, hp1, hp2⟩
    obtain ⟨p, hp1, hp2⟩ := hedge
    refine ⟨p, ⟨hp1, Relation.ReflTransGen.trans
      (Relation.ReflTransGen.single hp2) hyx⟩, ?_⟩
    have hpids : p ∈ g.idList :=
      reaches_mem_ids hwf (reaches_of_reflTransGen hreach hp1)
    have hyids : y ∈ g.idList :=
      reaches_mem_ids hwf (reaches_of_reflTransGen hreach hxy)
    exact (hwf.2.2.2.2.2.2 p hpids y hyids).1 hp2

theorem nodup_subset_length_le {e nodes : List Nat} (he : e.Nodup)
    (hsub : ∀ y ∈ e, y ∈ nodes) : e.length ≤ nodes.length := by
  have h1 : e.toFinset ⊆ nodes.toFinset := by
    intro y hy
    rw [List.mem_toFinset] at hy ⊢
    exact hsub y hy
  have h2 := Finset.card_le_card h1
  have h3 : e.toFinset.card = e.length := List.toFinset_card_of_nodup he
  have h4 : nodes.toFinset.card ≤ nodes.length := nodes.toFinset_card_le
  omega

theorem exists_source {g : PGraph} (hwf : WellFormed g) (hacyc : Acyclic g)
    (hclosed : PredClosed g) {executed : List Nat}
    (hlt : executed.length < (collectNodes g).length) :
    ∃ v ∈ collectNodes g, v ∉ executed ∧ ∀ p ∈ g.predOf v, p ∈ executed := by
  by_contra hcon
  push_neg at hcon
  set nodes := collectNodes g with hnodes
  set U : Finset Nat := nodes.toFinset \ executed.toFinset with hU
  have hUnodes : ∀ v ∈ U, v ∈ nodes ∧ v ∉ executed := by
    intro v hv
    rw [hU, Finset.mem_sdiff, List.mem_toFinset, List.mem_toFinset] at hv
    exact hv
  have hUne : U.Nonempty := by
    rw [← Finset.card_pos, hU]
    have h1 : nodes.toFinset.card = nodes.length :=
      List.toFinset_card_of_nodup (collect_nodup g)
    have h2 : executed.toFinset.card ≤ executed.length := executed.toFinset_card_le
    have h3 := Finset.le_card_sdiff executed.toFinset nodes.toFinset
    omega
  have hstep : ∀ v, v ∈ U → ∃ p, p ∈ U ∧ p ∈ g.predOf v := by
    intro v hv
    obtain ⟨hvn, hve⟩ := hUnodes v hv
    obtain ⟨p, hp1, hp2⟩ := hcon v hvn hve
    have hvreach : Reaches g v := collect_sound v hvn
    have hpreach : Reaches g p := hclosed v hvreach p hp1
    have hpn : p ∈ nodes := collect_complete hwf hpreach
    refine ⟨p, ?_, hp1⟩
    rw [hU, Finset.mem_sdiff, List.mem_toFinset, List.mem_toFinset]
    exact ⟨hpn, hp2⟩
  choose f hf1 hf2 using hstep
  obtain ⟨u0, hu0⟩ := hUne
  let F : {a // a ∈ U} → {a // a ∈ U} := fun a => ⟨f a.1 a.2, hf1 a.1 a.2⟩
  let c : Nat → {a // a ∈ U} := fun n => F^[n] ⟨u0, hu0⟩
  have hcsucc : ∀ n, c (n + 1) = F (c n) := by
    intro n
    simp only [c, Function.iterate_succ_apply']
  have hpredc : ∀ n, (c (n + 1)).val ∈ g.predOf (c n).val := by
    intro n
    rw [hcsucc n]
    exact hf2 (c n).1 (c n).2
  have hids : ∀ n, (c n).val ∈ g.idList := by
    intro n
    exact collect_subset_ids hwf _ (hUnodes _ (c n).2).1
  have hedgec : ∀ n, Edge g (c (n + 1)).val (c n).val := by
    intro n
    exact (hwf.2.2.2.2.2.2 _ (hids (n + 1)) _ (hids n)).2 (hpredc n)
  have htg : ∀ (d n : Nat),
      Relation.TransGen (Edge g) (c (n + d + 1)).val (c n).val := by
    intro d
    induction d with
    | zero => exact fun n => Relation.TransGen.single (hedgec n)
    | succ d ih =>
        intro n
        exact Relation.TransGen.head (hedgec (n + d + 1)) (ih n)
  obtain ⟨i, j, hne, heq⟩ :=
    Fintype.exists_ne_map_eq_of_card_lt (fun i : Fin (U.card + 1) => c i.val)
      (by rw [Fintype.card_coe, Fintype.card_fin]; omega)
  have hcycle : ∀ (a b : Nat), a < b → c a = c b → False := by
    intro a b hab hcab
    have hidx : a + (b - a - 1) + 1 = b := by omega
    have := htg (b - a - 1) a
    rw [hidx, ← hcab] at this
    exact hacyc (c a).val this
  rcases hne.lt_or_lt with h | h
  · exact hcycle i.val j.val h (by rw [heq])
  · exact hcycle j.val i.val h (by rw [heq])

theorem ready_nonempty_of_acyclic {g : PGraph} (hwf : WellFormed g)
    (hacyc : Acyclic g) (hclosed : PredClosed g) {inDeg : Nat → Int}
    {executed : List Nat} (hinv : ExecInv g (collectNodes g) inDeg executed)
    (hlt : executed.length < (collectNodes g).length) :
    ¬ (readyList (collectNodes g) inDeg executed).isEmpty = true := by
  obtain ⟨v, hvn, hve, hvpred⟩ := exists_source hwf hacyc hclosed hlt
  have hfull : ((g.predOf v).filter (fun p => decide (p ∈ executed))).length =
      (g.predOf v).length := by
    have : (g.predOf v).filter (fun p => decide (p ∈ executed)) = g.predOf v :=
      List.filter_eq_self.2 (fun p hp => by simpa using hvpred p hp)
    rw [this]
  have hzero : inDeg v = 0 := by
    have := hinv.2.2 v hvn
    omega
  have hmem : v ∈ readyList (collectNodes g) inDeg executed :=
    mem_readyList.2 ⟨hvn, hzero, hve⟩
  intro hempty
  rw [List.isEmpty_iff] at hempty
  rw [hempty] at hmem
  exact List.not_mem_nil v hmem

theorem roundsOrdered_append {g : PGraph} :
    ∀ (s : List (List Nat)) (d r : List Nat),
      RoundsOrderedFrom g d s → (∀ v ∈ r, ∀ p ∈ g.predOf v, p ∈ d ++ s.flatten) →
      RoundsOrderedFrom g d (s ++ [r])
  | [], d, r => by
    intro _ h
    exact ⟨by simpa using h, trivial⟩
  | r0 :: rest, d, r => by
    intro hrof h
    obtain ⟨h1, h2⟩ := hrof
    refine ⟨h1, roundsOrdered_append rest (d ++ r0) r h2 ?_⟩
    intro v hv p hp
    have := h v hv p hp
    simpa [List.append_assoc] using this

theorem ready_preds_executed {g : PGraph} {nodes : List Nat} {inDeg : Nat → Int}
    {executed : List Nat} (hinv : ExecInv g nodes inDeg executed) :
    ∀ v ∈ readyList nodes inDeg executed, ∀ p ∈ g.predOf v, p ∈ executed := by
  intro v hv p hp
  obtain ⟨hvn, hzero, _⟩ := mem_readyList.1 hv
  have hdeg := hinv.2.2 v hvn
  have hle := List.length_filter_le (fun p => decide (p ∈ executed)) (g.predOf v)
  have hfull : ((g.predOf v).filter (fun p => decide (p ∈ executed))).length =
      (g.predOf v).length := by omega
  have := all_of_filter_length_eq (g.predOf v) hfull p hp
  simpa using this

theorem runLoop_ok {g : PGraph} (hwf : WellFormed g) (hacyc : Acyclic g)
    (hclosed : PredClosed g) :
    ∀ (fuel : Nat) (inDeg : Nat → Int) (executed : List Nat)
      (sched : List (List Nat)),
      ExecInv g (collectNodes g) inDeg executed →
      (collectNodes g).length < executed.length + fuel →
      executed = sched.flatten →
      RoundsOrderedFrom g [] sched →
      ∃ sched', runLoop g (collectNodes g) fuel inDeg executed sched = .ok sched' ∧
        RoundsOrderedFrom g [] sched' ∧
        (∀ y, y ∈ sched'.flatten ↔ y ∈ collectNodes g) ∧ sched'.flatten.Nodup
  | 0, inDeg, executed, sched => by
    intro hinv hfuel _ _
    have := nodup_subset_length_le hinv.2.1 hinv.1
    omega
  | fuel + 1, inDeg, executed, sched => by
    intro hinv hfuel hjoin hord
    rw [runLoop]
    by_cases hlt : executed.length < (collectNodes g).length
    · rw [if_pos hlt]
      have hne := ready_nonempty_of_acyclic hwf hacyc hclosed hinv hlt
      simp only [Bool.not_eq_true] at hne
      simp only [hne, Bool.false_eq_true, if_false]
      have hready_len : 0 < (readyList (collectNodes g) inDeg executed).length := by
        rw [List.isEmpty_eq_false, ← List.length_pos] at hne
        exact hne
      apply runLoop_ok hwf hacyc hclosed fuel
      · exact execInv_step hwf (collect_nodup g) (collect_subset_ids hwf) hinv
      · rw [List.length_append]
        omega
      · rw [hjoin]
        simp
      · apply roundsOrdered_append _ _ _ hord
        intro v hv p hp
        have := ready_preds_executed hinv v hv p hp
        rw [hjoin] at this
        simpa using this
    · rw [if_neg hlt]
      refine ⟨sched, rfl, hord, ?_, ?_⟩
      · intro y
        rw [← hjoin]
        exact mem_iff_of_full hinv.2.1 hinv.1 (by omega) y
      · rw [← hjoin]
        exact hinv.2.1

/-! ## Concrete graphs used as witnesses and counterexamples -/

theorem transGen_lt {g : PGraph} (h : ∀ a b, Edge g a b → a < b) {x y : Nat}
    (ht : Relation.TransGen (Edge g) x y) : x < y := by
  induction ht with
  | single h1 => exact h _ _ h1
  | tail _ h2 ih => exact lt_trans ih (h _ _ h2)

theorem acyclic_of_edge_lt {g : PGraph} (h : ∀ a b, Edge g a b → a < b) :
    Acyclic g :=
  fun x ht => lt_irrefl x (transGen_lt h ht)

theorem strayPredG_edge_lt : ∀ a b, Edge strayPredG a b → a < b := by
  intro a b h
  have ha := edge_src_mem h
  have ha' : a = 0 ∨ a = 1 ∨ a = 2 := by
    simpa [strayPredG, PGraph.idList] using ha
  rcases ha' with rfl | rfl | rfl
  · have e : strayPredG.succOf 0 = [2] := rfl
    rw [Edge, e] at h
    simp at h
    omega
  · have e : strayPredG.succOf 1 = [2] := rfl
    rw [Edge, e] at h
    simp at h
    omega
  · have e : strayPredG.succOf 2 = [] := rfl
    rw [Edge, e] at h
    simp at h

theorem diamondG_edge_lt : ∀ a b, Edge diamondG a b → a < b := by
  intro a b h
  have ha := edge_src_mem h
  have ha' : a = 0 ∨ a = 1 ∨ a = 2 ∨ a = 3 := by
    simpa [diamondG, PGraph.idList] using ha
  rcases ha' with rfl | rfl | rfl | rfl
  · have e : diamondG.succOf 0 = [1, 2] := rfl
    rw [Edge, e] at h
    simp at h
    rcases h with rfl | rfl <;> omega
  · have e : diamondG.succOf 1 = [3] := rfl
    rw [Edge, e] at h
    simp at h
    omega
  · have e : diamondG.succOf 2 = [3] := rfl
    rw [Edge, e] at h
    simp at h
    omega
  · have e : diamondG.succOf 3 = [] := rfl
    rw [Edge, e] at h
    simp at h

theorem diamondG_predClosed : PredClosed diamondG := by
  have hwf : WellFormed diamondG := by decide
  have key : ∀ x ∈ collectNodes diamondG, ∀ p ∈ diamondG.predOf x,
      p ∈ collectNodes diamondG := by decide
  intro x hx p hp
  exact (collect_iff hwf p).1 (key x (collect_complete hwf hx) p hp)

/-! ## Claim theorems for the Graph Scheduler -/

/-- C2: for every well-formed node graph containing a successor-edge cycle
among the nodes reachable from the root, `BasePipeline.run` terminates and
raises `ValueError("Cycle detected in DAG")` — it neither loops forever
(the fuel bound is never the reported outcome) nor returns normally, and
the error aborts the run. -/
theorem run_raises_on_reachable_cycle (g : PGraph) (hwf : WellFormed g)
    (hcyc : ∃ x, Reaches g x ∧ Relation.TransGen (Edge g) x x) :
    pipelineRun g = .error "Cycle detected in DAG" := by
  obtain ⟨x, hreach, htg⟩ := hcyc
  obtain ⟨C, hCx, hCreach, hCpred⟩ := cycle_pred_system hwf hreach htg
  show runLoop g (collectNodes g) ((collectNodes g).length + 1)
    (fun i => ((g.predOf i).length : Int)) [] [] = .error "Cycle detected in DAG"
  apply runLoop_stuck hwf (collect_nodup g) (collect_subset_ids hwf) C x hCx
    (fun y hy => collect_complete hwf (hCreach y hy)) hCpred
  · exact execInv_init
  · intro y _ h
    exact absurd h (List.not_mem_nil y)
  · simp

/-- Witness for C2: the two-node cycle graph is well-formed, its root lies
on a reachable cycle, and `run` on it raises the cycle error. -/
theorem run_raises_on_reachable_cycle_witness :
    pipelineRun cycleG = .error "Cycle detected in DAG" :=
  run_raises_on_reachable_cycle cycleG (by decide)
    ⟨0, Reaches.root,
      Relation.TransGen.head (show Edge cycleG 0 1 by decide)
        (Relation.TransGen.single (show Edge cycleG 1 0 by decide))⟩

/-- C1 counterexample: `strayPredG` (root 0 with successor 2; node 1 also a
declared predecessor of 2 but unreachable from the root) is acyclic and node
2 is reachable, yet `BasePipeline.run` raises "Cycle detected in DAG"
instead of executing every reachable node — refuting the claim that `run`
executes every reachable node for *every* acyclic graph. -/
theorem run_acyclic_claim_counterexample :
    WellFormed strayPredG ∧ Acyclic strayPredG ∧ Reaches strayPredG 2 ∧
      pipelineRun strayPredG = .error "Cycle detected in DAG" := by
  refine ⟨by decide, acyclic_of_edge_lt strayPredG_edge_lt, ?_, by decide⟩
  exact Reaches.step Reaches.root (by decide)

/-- C1 (amended): for every well-formed acyclic node graph in which every
predecessor of a reachable node is itself reachable from the root,
`BasePipeline.run` returns a schedule that executes every node reachable
from the root exactly once (the concatenated frontiers are duplicate-free
and contain exactly the reachable nodes), and no node is scheduled before
every one of its declared predecessors has completed in a strictly earlier
frontier. -/
theorem run_acyclic_executes_reachable_once (g : PGraph) (hwf : WellFormed g)
    (hacyc : Acyclic g) (hclosed : PredClosed g) :
    ∃ sched, pipelineRun g = .ok sched ∧ sched.flatten.Nodup ∧
      (∀ y, y ∈ sched.flatten ↔ Reaches g y) ∧ RoundsOrderedFrom g [] sched := by
  obtain ⟨sched', hrun, hord, hmem, hnd⟩ :=
    runLoop_ok hwf hacyc hclosed ((collectNodes g).length + 1)
      (fun i => ((g.predOf i).length : Int)) [] [] execInv_init (by simp) rfl trivial
  refine ⟨sched', ?_, hnd, ?_, hord⟩
  · show runLoop g (collectNodes g) ((collectNodes g).length + 1)
      (fun i => ((g.predOf i).length : Int)) [] [] = .ok sched'
    exact hrun
  · intro y
    exact (hmem y).trans (collect_iff hwf y)

/-- Witness for C1 (amended): the diamond graph 0 → 1,2 → 3 satisfies all
hypotheses and `run` schedules it in dependency order. -/
theorem run_acyclic_executes_reachable_once_witness :
    ∃ sched, pipelineRun diamondG = .ok sched ∧ sched.flatten.Nodup ∧
      (∀ y, y ∈ sched.flatten ↔ Reaches diamondG y) ∧
      RoundsOrderedFrom diamondG [] sched :=
  run_acyclic_executes_reachable_once diamondG (by decide)
    (acyclic_of_edge_lt diamondG_edge_lt) diamondG_predClosed

/-! ## Theorems: `BaseNode.add` -/

theorem addSucc_node_id (n : PNode) (b : Nat) : (addSucc n b).node_id = n.node_id := by
  rw [addSucc]
  split <;> rfl

theorem addPred_node_id (n : PNode) (a : Nat) : (addPred n a).node_id = n.node_id := by
  rw [addPred]
  split <;> rfl

theorem addSucc_predecessors (n : PNode) (b : Nat) :
    (addSucc n b).predecessors = n.predecessors := by
  rw [addSucc]
  split <;> rfl

theorem addPred_successors (n : PNode) (a : Nat) :
    (addPred n a).successors = n.successors := by
  rw [addPred]
  split <;> rfl

theorem addSucc_successors (n : PNode) (b : Nat) :
    (addSucc n b).successors =
      if b ∈ n.successors then n.successors else n.successors ++ [b] := by
  rw [addSucc]
  split <;> simp_all

theorem addPred_predecessors (n : PNode) (a : Nat) :
    (addPred n a).predecessors =
      if a ∈ n.predecessors then n.predecessors else n.predecessors ++ [a] := by
  rw [addPred]
  split <;> simp_all

theorem updA_node_id (a b : Nat) (n : PNode) : (updA a b n).node_id = n.node_id := by
  rw [updA]
  split
  · exact addSucc_node_id n b
  · rfl

theorem updB_node_id (a b : Nat) (n : PNode) : (updB a b n).node_id = n.node_id := by
  rw [updB]
  split
  · exact addPred_node_id n a
  · rfl

theorem find?_map_pres (j : Nat) (f : PNode → PNode)
    (hf : ∀ n, (f n).node_id = n.node_id) :
    ∀ l : List PNode,
      (l.map f).find? (fun m => m.node_id == j) =
        (l.find? (fun m => m.node_id == j)).map f
  | [] => rfl
  | n :: l => by
    rw [List.map_cons, List.find?_cons, List.find?_cons, hf n]
    cases hcmp : (n.node_id == j) with
    | true => simp [hcmp]
    | false =>
        simp only [hcmp]
        exact find?_map_pres j f hf l

theorem find?_addEdge (g : PGraph) (a b j : Nat) :
    (addEdge g a b).find? j = (g.find? j).map (fun n => updB a b (updA a b n)) := by
  show ((g.nodes.map (updA a b)).map (updB a b)).find? (fun m => m.node_id == j) =
    (g.nodes.find? (fun m => m.node_id == j)).map (fun n => updB a b (updA a b n))
  rw [find?_map_pres j (updB a b) (updB_node_id a b),
    find?_map_pres j (updA a b) (updA_node_id a b)]
  cases g.nodes.find? (fun m => m.node_id == j) <;> rfl

theorem succOf_addEdge_self {g : PGraph} {a : Nat} (b : Nat) (ha : a ∈ g.idList) :
    (addEdge g a b).succOf a =
      if b ∈ g.succOf a then g.succOf a else g.succOf a ++ [b] := by
  obtain ⟨n, hn⟩ := find?_isSome_of_mem ha
  obtain ⟨_, hid⟩ := find?_spec hn
  have hsucc : g.succOf a = n.successors := by
    rw [PGraph.succOf, hn]
    rfl
  have hL : (addEdge g a b).succOf a = (updB a b (updA a b n)).successors := by
    rw [PGraph.succOf, find?_addEdge, hn]
    rfl
  rw [hL, hsucc, updA, if_pos hid, updB]
  split
  · rw [addPred_successors, addSucc_successors]
  · rw [addSucc_successors]

theorem succOf_addEdge_other {g : PGraph} {a x : Nat} (b : Nat) (hx : x ≠ a) :
    (addEdge g a b).succOf x = g.succOf x := by
  rw [PGraph.succOf, PGraph.succOf, find?_addEdge]
  cases hf : g.find? x with
  | none => rfl
  | some n =>
      obtain ⟨_, hid⟩ := find?_spec hf
      show (updB a b (updA a b n)).successors = n.successors
      have hne : ¬ n.node_id = a := by
        rw [hid]
        exact hx
      rw [updA, if_neg hne, updB]
      split
      · rw [addPred_successors]
      · rfl

theorem predOf_addEdge_self {g : PGraph} {b : Nat} (a : Nat) (hb : b ∈ g.idList) :
    (addEdge g a b).predOf b =
      if a ∈ g.predOf b then g.predOf b else g.predOf b ++ [a] := by
  obtain ⟨n, hn⟩ := find?_isSome_of_mem hb
  obtain ⟨_, hid⟩ := find?_spec hn
  have hpred : g.predOf b = n.predecessors := by
    rw [PGraph.predOf, hn]
    rfl
  have hL : (addEdge g a b).predOf b = (updB a b (updA a b n)).predecessors := by
    rw [PGraph.predOf, find?_addEdge, hn]
    rfl
  have hidA : (updA a b n).node_id = b := by rw [updA_node_id]; exact hid
  have hpresA : (updA a b n).predecessors = n.predecessors := by
    rw [updA]
    split
    · rw [addSucc_predecessors]
    · rfl
  rw [hL, hpred, updB, if_pos hidA, addPred_predecessors, hpresA]

theorem predOf_addEdge_other {g : PGraph} {b x : Nat} (a : Nat) (hx : x ≠ b) :
    (addEdge g a b).predOf x = g.predOf x := by
  rw [PGraph.predOf, PGraph.predOf, find?_addEdge]
  cases hf : g.find? x with
  | none => rfl
  | some n =>
      obtain ⟨_, hid⟩ := find?_spec hf
      show (updB a b (updA a b n)).predecessors = n.predecessors
      have hidA : (updA a b n).node_id = x := by rw [updA_node_id]; exact hid
      have hne : ¬ (updA a b n).node_id = b := by
        rw [hidA]
        exact hx
      rw [updB, if_neg hne, updA]
      split
      · rw [addSucc_predecessors]
      · rfl

theorem map_id_of_eq {α : Type} {f : α → α} :
    ∀ l : List α, (∀ x ∈ l, f x = x) → l.map f = l
  | [], _ => rfl
  | x :: l, h => by
    rw [List.map_cons, h x (by simp), map_id_of_eq l (fun y hy => h y (by simp [hy]))]

theorem idList_addEdge (g : PGraph) (a b : Nat) :
    (addEdge g a b).idList = g.idList := by
  show ((g.nodes.map (updA a b)).map (updB a b)).map PNode.node_id = _
  rw [List.map_map, List.map_map]
  apply List.map_congr_left
  intro n _
  show (updB a b (updA a b n)).node_id = n.node_id
  rw [updB_node_id, updA_node_id]

theorem mem_nodes_addEdge {g : PGraph} {a b : Nat} {m : PNode} :
    m ∈ (addEdge g a b).nodes ↔ ∃ n ∈ g.nodes, m = updB a b (updA a b n) := by
  show m ∈ (g.nodes.map (updA a b)).map (updB a b) ↔ _
  simp only [List.mem_map]
  constructor
  · rintro ⟨n1, ⟨n, hn, rfl⟩, rfl⟩
    exact ⟨n, hn, rfl⟩
  · rintro ⟨n, hn, rfl⟩
    exact ⟨updA a b n, ⟨n, hn, rfl⟩, rfl⟩

theorem mem_addList {l : List Nat} {b x : Nat} :
    x ∈ (if b ∈ l then l else l ++ [b]) ↔ x ∈ l ∨ x = b := by
  split
  · constructor
    · exact fun h => Or.inl h
    · rintro (h | rfl)
      · exact h
      · assumption
  · simp [List.mem_append]

theorem updB_successors (a b : Nat) (n : PNode) :
    (updB a b n).successors = n.successors := by
  rw [updB]
  split
  · rw [addPred_successors]
  · rfl

theorem updA_predecessors (a b : Nat) (n : PNode) :
    (updA a b n).predecessors = n.predecessors := by
  rw [updA]
  split
  · rw [addSucc_predecessors]
  · rfl

theorem mem_updAB_successors {a b : Nat} {n : PNode} {s : Nat}
    (h : s ∈ (updB a b (updA a b n)).successors) : s ∈ n.successors ∨ s = b := by
  rw [updB_successors, updA] at h
  split at h
  · rw [addSucc_successors] at h
    exact mem_addList.1 h
  · exact Or.inl h

theorem mem_updAB_predecessors {a b : Nat} {n : PNode} {p : Nat}
    (h : p ∈ (updB a b (updA a b n)).predecessors) : p ∈ n.predecessors ∨ p = a := by
  rw [updB] at h
  split at h
  · rw [addPred_predecessors, updA_predecessors] at h
    exact mem_addList.1 h
  · rw [updA_predecessors] at h
    exact Or.inl h

theorem nodup_addList {l : List Nat} {b : Nat} (h : l.Nodup) :
    (if b ∈ l then l else l ++ [b]).Nodup := by
  split
  · exact h
  · rename_i hmem
    simp [List.nodup_append, h, hmem]

theorem nodup_updAB_successors {a b : Nat} {n : PNode} (h : n.successors.Nodup) :
    (updB a b (updA a b n)).successors.Nodup := by
  rw [updB_successors, updA]
  split
  · rw [addSucc_successors]
    exact nodup_addList h
  · exact h

theorem nodup_updAB_predecessors {a b : Nat} {n : PNode} (h : n.predecessors.Nodup) :
    (updB a b (updA a b n)).predecessors.Nodup := by
  rw [updB]
  split
  · rw [addPred_predecessors, updA_predecessors]
    exact nodup_addList h
  · rw [updA_predecessors]
    exact h

theorem list_find?_unique :
    ∀ (l : List PNode), (l.map PNode.node_id).Nodup → ∀ n ∈ l,
      l.find? (fun m => m.node_id == n.node_id) = some n
  | [], _, n, hn => absurd hn (List.not_mem_nil n)
  | m :: l, hnd, n, hn => by
    rw [List.map_cons, List.nodup_cons] at hnd
    rw [List.find?_cons]
    cases hcmp : (m.node_id == n.node_id) with
    | true =>
        have heq : m.node_id = n.node_id := by simpa using hcmp
        rcases List.mem_cons.1 hn with rfl | h1
        · simp only [hcmp]
        · exfalso
          exact hnd.1 (heq ▸ List.mem_map_of_mem PNode.node_id h1)
    | false =>
        rcases List.mem_cons.1 hn with rfl | h1
        · simp at hcmp
        · simp only [hcmp]
          exact list_find?_unique l hnd.2 n h1

theorem find?_eq_of_mem {g : PGraph} (hnd : g.idList.Nodup) {n : PNode}
    (hn : n ∈ g.nodes) : g.find? n.node_id = some n :=
  list_find?_unique g.nodes hnd n hn

theorem succOf_eq_of_mem {g : PGraph} (hnd : g.idList.Nodup) {n : PNode}
    (hn : n ∈ g.nodes) : g.succOf n.node_id = n.successors := by
  rw [PGraph.succOf, find?_eq_of_mem hnd hn]
  rfl

theorem predOf_eq_of_mem {g : PGraph} (hnd : g.idList.Nodup) {n : PNode}
    (hn : n ∈ g.nodes) : g.predOf n.node_id = n.predecessors := by
  rw [PGraph.predOf, find?_eq_of_mem hnd hn]
  rfl

/-- C10: for a well-formed graph containing nodes `a` and `b`, after
`a.add(b)` the node `b` occurs exactly once in `a.successors` and `a`
occurs exactly once in `b.predecessors`; calling `a.add(b)` again is a
no-op (the whole graph is unchanged); and the data-model invariant
(symmetric, duplicate-free successor/predecessor lists) is preserved, so it
holds under every sequence of `add` calls. -/
theorem baseNode_add_consistency (g : PGraph) (hwf : WellFormed g) (a b : Nat)
    (ha : a ∈ g.idList) (hb : b ∈ g.idList) :
    ((addEdge g a b).succOf a).count b = 1 ∧
    ((addEdge g a b).predOf b).count a = 1 ∧
    addEdge (addEdge g a b) a b = addEdge g a b ∧
    WellFormed (addEdge g a b) := by
  obtain ⟨hroot, hnd, hsmem, hpmem, hsnd, hpnd, hsymm⟩ := hwf
  have hsa : (g.succOf a).Nodup :=
    succOf_nodup ⟨hroot, hnd, hsmem, hpmem, hsnd, hpnd, hsymm⟩ a
  have hpb : (g.predOf b).Nodup :=
    predOf_nodup ⟨hroot, hnd, hsmem, hpmem, hsnd, hpnd, hsymm⟩ b
  have hcount1 : ((addEdge g a b).succOf a).count b = 1 := by
    rw [succOf_addEdge_self b ha]
    split
    · rename_i hmem
      exact List.count_eq_one_of_mem hsa hmem
    · rename_i hmem
      rw [List.count_append, List.count_eq_zero.2 hmem]
      simp
  have hcount2 : ((addEdge g a b).predOf b).count a = 1 := by
    rw [predOf_addEdge_self a hb]
    split
    · rename_i hmem
      exact List.count_eq_one_of_mem hpb hmem
    · rename_i hmem
      rw [List.count_append, List.count_eq_zero.2 hmem]
      simp
  have hids2 : (addEdge g a b).idList = g.idList := idList_addEdge g a b
  have hnd2 : (addEdge g a b).idList.Nodup := by rw [hids2]; exact hnd
  refine ⟨hcount1, hcount2, ?_, ?_⟩
  · -- idempotence
    have hbmem : b ∈ (addEdge g a b).succOf a := by
      rw [succOf_addEdge_self b ha]
      exact mem_addList.2 (Or.inr rfl)
    have hamem : a ∈ (addEdge g a b).predOf b := by
      rw [predOf_addEdge_self a hb]
      exact mem_addList.2 (Or.inr rfl)
    have hmapA : (addEdge g a b).nodes.map (updA a b) = (addEdge g a b).nodes := by
      apply map_id_of_eq
      intro m hm
      rw [updA]
      split
      · rename_i hma
        have hsm : (addEdge g a b).succOf m.node_id = m.successors :=
          succOf_eq_of_mem hnd2 hm
        rw [hma] at hsm
        rw [addSucc, if_pos (hsm ▸ hbmem)]
      · rfl
    have hmapB : (addEdge g a b).nodes.map (updB a b) = (addEdge g a b).nodes := by
      apply map_id_of_eq
      intro m hm
      rw [updB]
      split
      · rename_i hmb
        have hpm : (addEdge g a b).predOf m.node_id = m.predecessors :=
          predOf_eq_of_mem hnd2 hm
        rw [hmb] at hpm
        rw [addPred, if_pos (hpm ▸ hamem)]
      · rfl
    show { addEdge g a b with
      nodes := ((addEdge g a b).nodes.map (updA a b)).map (updB a b) } = addEdge g a b
    rw [hmapA, hmapB]
  · -- well-formedness is preserved
    refine ⟨?_, hnd2, ?_, ?_, ?_, ?_, ?_⟩
    · show (addEdge g a b).root ∈ (addEdge g a b).idList
      rw [hids2]
      exact hroot
    · intro m hm s hs
      obtain ⟨n, hn, rfl⟩ := mem_nodes_addEdge.1 hm
      rw [hids2]
      rcases mem_updAB_successors hs with h | rfl
      · exact hsmem n hn s h
      · exact hb
    · intro m hm p hp
      obtain ⟨n, hn, rfl⟩ := mem_nodes_addEdge.1 hm
      rw [hids2]
      rcases mem_updAB_predecessors hp with h | rfl
      · exact hpmem n hn p h
      · exact ha
    · intro m hm
      obtain ⟨n, hn, rfl⟩ := mem_nodes_addEdge.1 hm
      exact nodup_updAB_successors (hsnd n hn)
    · intro m hm
      obtain ⟨n, hn, rfl⟩ := mem_nodes_addEdge.1 hm
      exact nodup_updAB_predecessors (hpnd n hn)
    · intro u hu v hv
      rw [hids2] at hu hv
      by_cases hua : u = a
      · subst hua
        by_cases hvb : v = b
        · subst hvb
          rw [succOf_addEdge_self v ha, predOf_addEdge_self u hb]
          exact iff_of_true (mem_addList.2 (Or.inr rfl)) (mem_addList.2 (Or.inr rfl))
        · rw [succOf_addEdge_self b ha, predOf_addEdge_other u hvb]
          constructor
          · intro h
            rcases mem_addList.1 h with h1 | h1
            · exact (hsymm u hu v hv).1 h1
            · exact absurd h1 hvb
          · intro h
            exact mem_addList.2 (Or.inl ((hsymm u hu v hv).2 h))
      · by_cases hvb : v = b
        · subst hvb
          rw [succOf_addEdge_other v hua, predOf_addEdge_self a hb]
          constructor
          · intro h
            exact mem_addList.2 (Or.inl ((hsymm u hu v hv).1 h))
          · intro h
            rcases mem_addList.1 h with h1 | h1
            · exact (hsymm u hu v hv).2 h1
            · exact absurd h1 hua
        · rw [succOf_addEdge_other b hua, predOf_addEdge_other a hvb]
          exact hsymm u hu v hv

/-- Witness for C10: adding the already-present edge 0 → 1 of the diamond
graph keeps each edge list duplicate-free, is idempotent, and preserves
well-formedness. -/
theorem baseNode_add_consistency_witness :
    ((addEdge diamondG 0 1).succOf 0).count 1 = 1 ∧
    ((addEdge diamondG 0 1).predOf 1).count 0 = 1 ∧
    addEdge (addEdge diamondG 0 1) 0 1 = addEdge diamondG 0 1 ∧
    WellFormed (addEdge diamondG 0 1) :=
  baseNode_add_consistency diamondG (by decide) 0 1 (by decide) (by decide)

/-! ## Theorems: world listing and selection -/

theorem listEnvWorlds_sorted (f : EnvFolder) (mode : String) :
    List.Pairwise (fun a b : Nat => a ≤ b) (listEnvWorlds f mode) := by
  rw [listEnvWorlds]
  cases chooseDir f mode with
  | none => simp
  | some files => exact List.sorted_insertionSort _ (files.map Prod.fst)

theorem listEnvWorlds_perm (f : EnvFolder) (mode : String) :
    List.Perm (listEnvWorlds f mode) (rawStems f mode) := by
  rw [listEnvWorlds, rawStems]
  cases chooseDir f mode with
  | none => exact List.Perm.refl []
  | some files => exact List.perm_insertionSort _ _

theorem normalizeMode_of_other {m : String} (h1 : strToLower m ≠ "test")
    (h2 : strToLower m ≠ "val") : normalizeMode m = "test" := by
  by_cases hm : m = ""
  · subst hm
    decide
  · rw [normalizeMode]
    simp only [hm, if_false]
    rw [if_neg]
    rintro (h | h)
    · exact h1 h
    · exact h2 h

/-- C9: work-item selection in `Benchmark.execute` is deterministic:
`_list_env_worlds` returns the chosen levels directory's identifiers in
ascending sorted order (a permutation of the raw glob listing); with
`max_worlds = n` exactly the first `n` identifiers of that order are run
(all of them when `max_worlds` is `None` or at least the count); and any
`world_mode` other than "test" or "val" after lowercasing selects exactly
as "test" does. -/
theorem benchmark_world_selection (f : EnvFolder) (m : String) (n : Nat)
    (N : Option Nat) :
    List.Pairwise (fun a b : Nat => a ≤ b) (listEnvWorlds f (normalizeMode m)) ∧
    List.Perm (listEnvWorlds f (normalizeMode m)) (rawStems f (normalizeMode m)) ∧
    (selectWorlds f m (some n) <+: listEnvWorlds f (normalizeMode m) ∧
      (selectWorlds f m (some n)).length =
        min n (listEnvWorlds f (normalizeMode m)).length) ∧
    (selectWorlds f m none = listEnvWorlds f (normalizeMode m) ∧
      ((listEnvWorlds f (normalizeMode m)).length ≤ n →
        selectWorlds f m (some n) = listEnvWorlds f (normalizeMode m))) ∧
    (strToLower m ≠ "test" → strToLower m ≠ "val" →
      selectWorlds f m N = selectWorlds f "test" N) := by
  refine ⟨listEnvWorlds_sorted f (normalizeMode m),
    listEnvWorlds_perm f (normalizeMode m), ⟨?_, ?_⟩, ⟨rfl, ?_⟩, ?_⟩
  · exact List.take_prefix n _
  · exact List.length_take n _
  · intro hle
    exact List.take_of_length_le hle
  · intro h1 h2
    have hm : normalizeMode m = "test" := normalizeMode_of_other h1 h2
    have ht : normalizeMode "test" = "test" := by decide
    rw [selectWorlds.eq_def, selectWorlds.eq_def, hm, ht]

/-- Witness for C9: on the five-level workload, an unknown mode string
selects exactly as "test", and the listing for it is sorted. -/
theorem benchmark_world_selection_witness :
    List.Pairwise (fun a b : Nat => a ≤ b)
      (listEnvWorlds ex5F (normalizeMode "Bogus")) ∧
    selectWorlds ex5F "Bogus" (some 3) = selectWorlds ex5F "test" (some 3) :=
  ⟨(benchmark_world_selection ex5F "Bogus" 3 (some 3)).1,
    (benchmark_world_selection ex5F "Bogus" 3 (some 3)).2.2.2.2
      (by decide) (by decide)⟩

/-! ## Theorems: ratio computation -/

/-- C5: in the result row, `ratio` equals `total_reward / max_reward_total`
whenever `max_reward_total` is nonzero and is reported absent (`None`) when
it is zero; the same guard protects every per-world ratio, so neither the
batch nor the per-item computation ever divides by zero (the quotient is
only formed under the nonzero test). -/
theorem benchmark_ratio_guarded (env_path llm_name : String)
    (total maxTotal : ℚ) (cost : Option ℚ) (details : List WorldDetail)
    (wids : List Nat) (duration : Option ℚ) (f : EnvFolder)
    (x : Nat × RunResult × EnvInfo) :
    ((maxTotal ≠ 0 →
        (buildRow env_path llm_name total maxTotal cost details wids duration).ratio =
          some (total / maxTotal)) ∧
      (maxTotal = 0 →
        (buildRow env_path llm_name total maxTotal cost details wids duration).ratio =
          none)) ∧
    ((perWorldMax f x.1 ≠ 0 →
        (buildDetail f x).ratio =
          some ((x.2.1.total_reward.getD 0) / perWorldMax f x.1)) ∧
      (perWorldMax f x.1 = 0 → (buildDetail f x).ratio = none)) := by
  refine ⟨⟨?_, ?_⟩, ?_, ?_⟩ <;> intro h <;> simp [buildRow, buildDetail, h]

/-- Witness for C5: concrete nonzero and zero maxima on both levels. -/
theorem benchmark_ratio_guarded_witness :
    (buildRow "e" "l" 3 2 none [] [5] none).ratio = some (3 / 2) ∧
    (buildRow "e" "l" 3 0 none [] [5] none).ratio = none ∧
    (buildDetail exOkF (7, exRun, exInfo7)).ratio = none :=
  ⟨(benchmark_ratio_guarded "e" "l" 3 2 none [] [5] none exOkF
      (7, exRun, exInfo7)).1.1 (by norm_num),
    (benchmark_ratio_guarded "e" "l" 3 0 none [] [5] none exOkF
      (7, exRun, exInfo7)).1.2 rfl,
    (benchmark_ratio_guarded "e" "l" 3 0 none [] [5] none exOkF
      (7, exRun, exInfo7)).2.2 (by decide)⟩

/-! ## Theorems: CSV schema migration -/

theorem rowCells_self :
    ∀ (row : List (String × String)), (row.map Prod.fst).Nodup →
      rowCells (row.map Prod.fst) row = row.map Prod.snd
  | [], _ => rfl
  | (k, v) :: rest, h => by
    rw [List.map_cons, List.nodup_cons] at h
    show rowCells (k :: rest.map Prod.fst) ((k, v) :: rest) = v :: rest.map Prod.snd
    rw [rowCells, List.map_cons]
    congr 1
    · simp
    · have hcongr : ∀ key ∈ rest.map Prod.fst,
          ((((k, v) :: rest).lookup key).getD "") = ((rest.lookup key).getD "") := by
        intro key hkey
        have hne : (key == k) = false := by
          simp only [beq_eq_false_iff_ne, ne_eq]
          intro e
          exact h.1 (e ▸ hkey)
        rw [List.lookup_cons]
        simp [hne]
      rw [List.map_congr_left hcongr]
      exact rowCells_self rest h.2

theorem cellLookup_absent {hdr : List String} {key : String} (h : key ∉ hdr)
    (row : List String) : cellLookup hdr row key = "" := by
  rw [cellLookup]
  have hnone : hdr.findIdx? (fun k => k == key) = none := by
    rw [List.findIdx?_eq_none_iff]
    intro x hx
    simp only [beq_eq_false_iff_ne, ne_eq]
    intro e
    exact h (e ▸ hx)
  rw [hnone]

/-- C6: when the report CSV already exists with a column layout different
from the row being appended, `_save_env_result_to_csv` migrates every
existing row into the new layout — filling columns absent from the old
layout with the empty string — replaces the store (written to a temporary
file and moved over the old one in the code), and only then appends the
new row: all prior rows are preserved in order and count, and the new row
is fully populated with the row's own values. -/
theorem csv_schema_migration (row : List (String × String)) (c : Csv)
    (hne : c.header ≠ row.map Prod.fst) (hkeys : (row.map Prod.fst).Nodup) :
    saveRowToCsv row (.content c) =
      { header := row.map Prod.fst
        rows := c.rows.map
            (fun old => (row.map Prod.fst).map (cellLookup c.header old)) ++
          [row.map Prod.snd] } ∧
    (∀ (old : List String) (k : String), k ∈ row.map Prod.fst → k ∉ c.header →
      cellLookup c.header old k = "") ∧
    (saveRowToCsv row (.content c)).rows.length = c.rows.length + 1 := by
  have hcells : rowCells (row.map Prod.fst) row = row.map Prod.snd :=
    rowCells_self row hkeys
  have hmain : saveRowToCsv row (.content c) =
      { header := row.map Prod.fst
        rows := c.rows.map
            (fun old => (row.map Prod.fst).map (cellLookup c.header old)) ++
          [row.map Prod.snd] } := by
    rw [saveRowToCsv.eq_def]
    simp only [migrateCsv, if_pos hne, hcells]
  refine ⟨hmain, ?_, ?_⟩
  · intro old k _ hk
    exact cellLookup_absent hk old
  · rw [hmain]
    simp

/-- Witness for C6: scenario D — a store with columns a, b, c and two rows
migrated and appended under the drifted layout a, b, c, d. -/
theorem csv_schema_migration_witness :
    saveRowToCsv exNewRow (.content exOldCsv) =
      { header := exNewRow.map Prod.fst
        rows := exOldCsv.rows.map
            (fun old => (exNewRow.map Prod.fst).map
              (cellLookup exOldCsv.header old)) ++
          [exNewRow.map Prod.snd] } ∧
    (∀ (old : List String) (k : String), k ∈ exNewRow.map Prod.fst →
      k ∉ exOldCsv.header → cellLookup exOldCsv.header old k = "") ∧
    (saveRowToCsv exNewRow (.content exOldCsv)).rows.length =
      exOldCsv.rows.length + 1 :=
  csv_schema_migration exNewRow exOldCsv (by decide) (by decide)

/-! ## Theorems: per-item failure handling in `execute` -/

theorem mapE_error_of_exists {β : Type} (g : Nat → Except String β) :
    ∀ (l : List Nat), (∃ w ∈ l, ∃ e, g w = Except.error e) →
      ∃ e, mapE g l = Except.error e
  | [], h => by
    obtain ⟨w, hw, _⟩ := h
    exact absurd hw (List.not_mem_nil w)
  | a :: l, h => by
    rw [mapE]
    cases hga : g a with
    | error e => exact ⟨e, rfl⟩
    | ok b =>
        obtain ⟨w, hw, e, hge⟩ := h
        rcases List.mem_cons.1 hw with rfl | hw2
        · rw [hga] at hge
          cases hge
        · obtain ⟨e2, he2⟩ := mapE_error_of_exists g l ⟨w, hw2, e, hge⟩
          rw [he2]
          exact ⟨e2, rfl⟩

theorem runWorld_error_of_load {f : EnvFolder}
    {solver : Nat → Except String RunResult} {w : Nat} {e : String}
    (h : loadEnvWorld f w = .error e) : runWorld f solver w = .error e := by
  rw [runWorld, h]

/-- C3 (amended): a workload-resolution failure for any one selected work
item — missing `env_main.py`, no `SkinEnv` subclass, missing metadata
files, or a missing or malformed level resource file — is NOT isolated to
that item: `run_world` has no handler, `asyncio.gather` re-raises the
failure, and `Benchmark.execute` aborts with it, producing no result
record (zero-reward or otherwise) for any item of the batch. -/
theorem benchmark_item_failure_aborts_batch (f : EnvFolder)
    (solver : Nat → Except String RunResult) (mode : String)
    (maxW : Option Nat) (env_path llm_name : String) (cost duration : Option ℚ)
    (rowOf : ResultRow → List (String × String)) (fs : FileState)
    (oc : SaveOutcome)
    (hfail : ∃ w ∈ selectWorlds f mode maxW, ∃ e, loadEnvWorld f w = .error e) :
    ∃ e, executeModel f solver mode maxW env_path llm_name cost duration
      rowOf fs oc = .error e := by
  have hfail2 : ∃ w ∈ selectWorlds f mode maxW, ∃ e,
      runWorld f solver w = Except.error e := by
    obtain ⟨w, hw, e, he⟩ := hfail
    exact ⟨w, hw, e, runWorld_error_of_load he⟩
  obtain ⟨e, he⟩ := mapE_error_of_exists (runWorld f solver)
    (selectWorlds f mode maxW) hfail2
  refine ⟨e, ?_⟩
  rw [executeModel]
  simp only [gatherWorlds, he]

/-- C3 counterexample: in a batch of five work items where only item 2's
resource file is malformed, every sibling item loads fine in isolation, yet
`execute` aborts with the item's error and returns no records at all — the
failing item is not surfaced as a zero-reward record and the siblings do
not contribute to any batch total. -/
theorem benchmark_item_failure_counterexample :
    selectWorlds ex5F "test" none = [0, 1, 2, 3, 4] ∧
    loadEnvWorld ex5F 2 = .error "Level missing or invalid" ∧
    (∀ w ∈ [0, 1, 3, 4], loadEnvWorld ex5F w =
      .ok { world_id := w, redirected := false, max_step := some 10 }) ∧
    executeModel ex5F exSolver "test" none "e" "l" none none exRowOf
      .missing { readOk := true, appendOk := true } =
      .error "Level missing or invalid" := by
  refine ⟨by decide, by decide, by decide, by decide⟩

/-- Witness for C3 (amended): the five-item batch with one malformed level
aborts as a whole. -/
theorem benchmark_item_failure_aborts_batch_witness :
    ∃ e, executeModel ex5F exSolver "test" none "e" "l" none none exRowOf
      .missing { readOk := true, appendOk := true } = .error e :=
  benchmark_item_failure_aborts_batch ex5F exSolver "test" none "e" "l"
    none none exRowOf .missing { readOk := true, appendOk := true }
    ⟨2, by decide, "Level missing or invalid", by decide⟩

/-! ## Theorems: persistence failure handling -/

/-- C7 (amended): inside `_save_env_result_to_csv` only the
read-and-migrate block for an existing file is guarded
(`except Exception: pass`), so a failure there is swallowed and the append
still happens; the final append itself is unguarded, so its failure
propagates out of the persistence step and out of `Benchmark.execute` to
the caller. -/
theorem benchmark_save_failure_propagation (f : EnvFolder)
    (solver : Nat → Except String RunResult) (mode : String)
    (maxW : Option Nat) (env_path llm_name : String) (cost duration : Option ℚ)
    (rowOf : ResultRow → List (String × String)) (oc : SaveOutcome) :
    (∀ (row : List (String × String)) (fs : FileState), oc.appendOk = true →
      ∃ fs2, saveRowToCsvE row fs oc = .ok fs2) ∧
    (∀ (row : List (String × String)) (fs : FileState), oc.appendOk = false →
      saveRowToCsvE row fs oc = .error "append failed") ∧
    (∀ fs : FileState, oc.appendOk = false →
      (∃ rs, gatherWorlds f solver (selectWorlds f mode maxW) = .ok rs) →
      executeModel f solver mode maxW env_path llm_name cost duration
        rowOf fs oc = .error "append failed") := by
  refine ⟨?_, ?_, ?_⟩
  · intro row fs h
    cases fs <;> simp [saveRowToCsvE, h]
  · intro row fs h
    cases fs <;> simp [saveRowToCsvE, h]
  · intro fs h hg
    obtain ⟨rs, hrs⟩ := hg
    have hsave : ∀ row, saveRowToCsvE row fs oc = .error "append failed" := by
      intro row
      cases fs <;> simp [saveRowToCsvE, h]
    rw [executeModel]
    simp only [hrs, hsave]

/-- C7 counterexample: with every work item succeeding but the CSV append
failing, `execute` raises instead of returning normally. -/
theorem benchmark_save_failure_counterexample :
    executeModel exOkF exSolver "test" none "e" "l" none none exRowOf
      .missing { readOk := true, appendOk := false } =
      .error "append failed" := by
  decide

/-- Witness for C7 (amended): concrete batch whose gather succeeds and
whose append failure propagates. -/
theorem benchmark_save_failure_propagation_witness :
    executeModel exOkF exSolver "test" none "e" "l" none none exRowOf
      .empty { readOk := false, appendOk := false } = .error "append failed" :=
  (benchmark_save_failure_propagation exOkF exSolver "test" none "e" "l"
    none none exRowOf { readOk := false, appendOk := false }).2.2
    .empty rfl ⟨_, rfl⟩

/-! ## Theorems: working directory and sys.path discipline -/

/-- C8 (amended): `_load_env` always restores the saved working directory;
provided `env_main.py` exists (so the load proceeds past its first check)
and the workload directory occurred at most once on `sys.path` beforehand,
the directory is absent from `sys.path` afterwards whether the module
execution and class lookup succeeded or failed; and every call proxied
through `EnvWrapper` executes with the workload directory as the current
working directory and restores the caller's directory afterwards, even
when the call raises. -/
theorem benchmark_load_env_state (envDir : String) (f : EnvFolder)
    (s : PState) (hcount : s.sysPath.count envDir ≤ 1) :
    ((loadEnvState envDir f s).2).cwd = s.cwd ∧
    (f.envMainExists = true →
      envDir ∉ ((loadEnvState envDir f s).2).sysPath) ∧
    (∀ (α : Type) (method : PState → Except String α × PState) (t : PState),
      ((wrappedCall envDir method t).2).cwd = t.cwd ∧
      (wrappedCall envDir method t).1 = (method { t with cwd := envDir }).1) := by
  refine ⟨?_, ?_, ?_⟩
  · rw [loadEnvState]
    by_cases h1 : f.envMainExists <;> by_cases h2 : f.execOk <;>
      by_cases h3 : f.subclassFound <;> simp [h1, h2, h3]
  · intro hmain
    rw [loadEnvState]
    have hgoal : envDir ∉
        (if envDir ∈ s.sysPath then s.sysPath else envDir :: s.sysPath).erase
          envDir := by
      split
      · rename_i hmem
        intro hmem2
        have hc1 : s.sysPath.count envDir = 1 :=
          Nat.le_antisymm hcount (List.count_pos_iff.2 hmem)
        have hc2 := List.count_erase_self envDir s.sysPath
        have hc3 := List.count_pos_iff.2 hmem2
        omega
      · rename_i hmem
        rw [List.erase_cons_head]
        exact hmem
    by_cases h2 : f.execOk <;> by_cases h3 : f.subclassFound <;>
      simp [hmain, h2, h3] <;> exact hgoal
  · intro α method t
    exact ⟨rfl, rfl⟩

/-- C8 counterexample: when the workload directory is already present twice
on `sys.path`, a successful `_load_env` leaves it on `sys.path` (only one
occurrence is removed), refuting the claim that the directory is removed
regardless. -/
theorem benchmark_load_env_syspath_counterexample :
    (loadEnvState "/env" exOkF
      { cwd := "/w", sysPath := ["/env", "/env"] }).1 = .ok () ∧
    "/env" ∈ ((loadEnvState "/env" exOkF
      { cwd := "/w", sysPath := ["/env", "/env"] }).2).sysPath ∧
    ((loadEnvState "/env" exOkF
      { cwd := "/w", sysPath := ["/env", "/env"] }).2).cwd = "/w" := by
  refine ⟨by decide, by decide, by decide⟩

/-- Witness for C8 (amended): a clean `sys.path`, a successful load, the
directory gone afterwards, the cwd restored, and a raising wrapped call
still restoring the cwd. -/
theorem benchmark_load_env_state_witness :
    ((loadEnvState "/env" exOkF { cwd := "/w", sysPath := ["/lib"] }).2).cwd =
      "/w" ∧
    "/env" ∉ ((loadEnvState "/env" exOkF
      { cwd := "/w", sysPath := ["/lib"] }).2).sysPath ∧
    ((wrappedCall "/env"
      (fun st => ((Except.error "boom" : Except String Unit), st))
      { cwd := "/w", sysPath := ["/lib"] }).2).cwd = "/w" := by
  obtain ⟨h1, h2, h3⟩ := benchmark_load_env_state "/env" exOkF
    { cwd := "/w", sysPath := ["/lib"] } (by decide)
  exact ⟨h1, h2 (by decide),
    (h3 Unit (fun st => ((Except.error "boom" : Except String Unit), st))
      { cwd := "/w", sysPath := ["/lib"] }).1⟩

/-! ## Theorems: the concurrency admission gate -/

theorem semStep_preserves {K : Nat} {s1 s2 : SemState} (hstep : SemStep s1 s2)
    (hdisj : Disjoint s1.waiting s1.running)
    (hcard : s1.running.card + s1.sem = K) :
    Disjoint s2.waiting s2.running ∧ s2.running.card + s2.sem = K := by
  cases hstep with
  | start t s ht hs =>
      constructor
      · rw [Finset.disjoint_left]
        intro x hx hx2
        rw [Finset.mem_erase] at hx
        rcases Finset.mem_insert.1 hx2 with rfl | hx3
        · exact hx.1 rfl
        · exact (Finset.disjoint_left.1 hdisj hx.2) hx3
      · have htn : t ∉ s1.running := Finset.disjoint_left.1 hdisj ht
        show (insert t s1.running).card + (s1.sem - 1) = K
        rw [Finset.card_insert_of_not_mem htn]
        omega
  | finish t s success ht =>
      constructor
      · exact hdisj.mono_right (Finset.erase_subset t s1.running)
      · have hpos : 0 < s1.running.card := Finset.card_pos.2 ⟨t, ht⟩
        show (s1.running.erase t).card + (s1.sem + 1) = K
        rw [Finset.card_erase_of_mem ht]
        omega

theorem semReachable_invariant (tasks : Finset Nat) (K : Nat) (s : SemState)
    (h : SemReachable tasks K s) :
    Disjoint s.waiting s.running ∧ s.running.card + s.sem = K := by
  induction h with
  | refl =>
      constructor
      · simp [initSemState]
      · simp [initSemState]
  | tail h1 hstep ih =>
      exact semStep_preserves hstep ih.1 ih.2

/-- C4: for a batch run with `world_concurrency = K`, every reachable
state of the admission-gate semantics keeps the number of in-flight items
plus the free semaphore permits exactly K — each item acquires before
starting and releases unconditionally on finishing, success or failure,
via the scoped `async with` — so at no instant are more than K work items
in flight. -/
theorem benchmark_semaphore_bound (tasks : Finset Nat) (K : Nat)
    (s : SemState) (h : SemReachable tasks K s) :
    s.running.card + s.sem = K ∧ s.running.card ≤ K := by
  have hinv := (semReachable_invariant tasks K s h).2
  exact ⟨hinv, by omega⟩

/-- Witness for C4: three tasks, bound 1, after admitting task 0 exactly
one item is in flight and the gate is exhausted. -/
theorem benchmark_semaphore_bound_witness :
    (⟨{1, 2}, {0}, ∅, 0⟩ : SemState).running.card +
      (⟨{1, 2}, {0}, ∅, 0⟩ : SemState).sem = 1 ∧
    (⟨{1, 2}, {0}, ∅, 0⟩ : SemState).running.card ≤ 1 := by
  have hstep : SemStep (initSemState {0, 1, 2} 1) ⟨{1, 2}, {0}, ∅, 0⟩ := by
    have h := SemStep.start 0 (initSemState {0, 1, 2} 1) (by decide) (by decide)
    have he : (initSemState ({0, 1, 2} : Finset Nat) 1).waiting.erase 0 =
        ({1, 2} : Finset Nat) := by decide
    have hi : insert 0 (initSemState ({0, 1, 2} : Finset Nat) 1).running =
        ({0} : Finset Nat) := by decide
    rw [he, hi] at h
    exact h
  exact benchmark_semaphore_bound {0, 1, 2} 1 ⟨{1, 2}, {0}, ∅, 0⟩
    (Relation.ReflTransGen.single hstep)

end AutoEnvProof
